import Mathlib

/-!
Verification of the adversarial-search core of the chess-player repository
(six minimax/alpha-beta players driven by weighted position evaluators).

The rules engine (the python-chess library) is an external collaborator:
it is modelled as an abstract structure of query functions together with
the contracts the collaborator guarantees (push/pop really undo, turn
assignment really overwrites the turn).  Every player function is a
faithful translation of the corresponding Python source; Python floats are
modelled by rationals (all the float arithmetic the players perform is
exact at the values that occur), and the float infinities used as search
bounds are modelled by an extended rational type.
-/

/-- Extended rationals: the score domain of the searches.  The Python code
uses floats together with the two infinities as initial alpha/beta bounds
and loop accumulators. -/
inductive XQ : Type where
  | ninf : XQ
  | num (q : ℚ) : XQ
  | pinf : XQ
deriving DecidableEq, Repr

namespace XQ

/-- The float order on scores including the infinities. -/
def xle : XQ → XQ → Prop
  | ninf, _ => True
  | num a, num b => a ≤ b
  | num _, ninf => False
  | _, pinf => True
  | pinf, num _ => False
  | pinf, ninf => False

instance : LE XQ := ⟨xle⟩

theorem le_def (a b : XQ) : (a ≤ b) ↔ xle a b := Iff.rfl

instance decLE : ∀ a b : XQ, Decidable (a ≤ b) := by
  intro a b
  rw [le_def]
  cases a <;> cases b <;> simp only [xle] <;> infer_instance

theorem xleRefl : ∀ a : XQ, a ≤ a := by
  intro a
  cases a with
  | ninf => trivial
  | num q => exact le_refl q
  | pinf => trivial

theorem xleTrans : ∀ a b c : XQ, a ≤ b → b ≤ c → a ≤ c := by
  intro a b c hab hbc
  cases a <;> cases b <;> cases c <;>
    simp only [le_def, xle] at * <;> try exact hab.trans hbc

theorem xleAntisymm : ∀ a b : XQ, a ≤ b → b ≤ a → a = b := by
  intro a b hab hba
  cases a <;> cases b <;> simp only [le_def, xle] at * <;> try rfl
  exact congrArg num (le_antisymm hab hba)

theorem xleTotal : ∀ a b : XQ, a ≤ b ∨ b ≤ a := by
  intro a b
  cases a <;> cases b <;> simp only [le_def, xle] <;> try tauto
  exact le_total _ _

instance linearOrder : LinearOrder XQ where
  le := xle
  le_refl := xleRefl
  le_trans := xleTrans
  le_antisymm := xleAntisymm
  le_total := xleTotal
  decidableLE := decLE

theorem ninf_le (a : XQ) : ninf ≤ a := by cases a <;> trivial

theorem le_pinf (a : XQ) : a ≤ pinf := by cases a <;> trivial

theorem numLe {a b : ℚ} : (num a ≤ num b) ↔ a ≤ b := Iff.rfl

theorem numLt {a b : ℚ} : (num a < num b) ↔ a < b := by
  constructor
  · intro h
    rcases lt_or_ge a b with h' | h'
    · exact h'
    · exact absurd (numLe.mpr h') (not_le_of_lt h)
  · intro h
    exact lt_of_le_of_ne (numLe.mpr h.le) (by simp [h.ne])

theorem ninfLtNum (a : ℚ) : ninf < num a :=
  lt_of_le_of_ne (ninf_le _) (by simp)

theorem numLtPinf (a : ℚ) : num a < pinf :=
  lt_of_le_of_ne (le_pinf _) (by simp)

theorem ninfLtPinf : (ninf : XQ) < pinf :=
  lt_of_le_of_ne (ninf_le _) (by simp)

/-- Negation of a score, as in Python float negation (negating the
infinities swaps them). -/
def neg : XQ → XQ
  | ninf => pinf
  | num a => num (-a)
  | pinf => ninf

theorem negNeg : ∀ a : XQ, a.neg.neg = a := by
  intro a; cases a <;> simp [neg]

theorem negLe : ∀ a b : XQ, a.neg ≤ b.neg ↔ b ≤ a := by
  intro a b
  cases a <;> cases b <;> simp only [neg, le_def, xle] <;> try tauto
  constructor <;> intro h <;> linarith

theorem negLt : ∀ a b : XQ, a.neg < b.neg ↔ b < a := by
  intro a b
  simp only [lt_iff_le_not_le, negLe]

theorem negMax (a b : XQ) : (max a b).neg = min a.neg b.neg := by
  rcases le_total a b with h | h
  · rw [max_eq_right h, min_eq_right ((negLe b a).mpr h)]
  · rw [max_eq_left h, min_eq_left ((negLe a b).mpr h)]

theorem negMin (a b : XQ) : (min a b).neg = max a.neg b.neg := by
  rcases le_total a b with h | h
  · rw [min_eq_left h, max_eq_left ((negLe b a).mpr h)]
  · rw [min_eq_right h, max_eq_right ((negLe a b).mpr h)]

theorem maxNinf (a : XQ) : max ninf a = a := max_eq_right (ninf_le a)

theorem minPinf (a : XQ) : min pinf a = a := min_eq_right (le_pinf a)

theorem maxNum (a b : ℚ) : max (num a) (num b) = num (max a b) := by
  rcases le_total a b with h | h
  · rw [max_eq_right (numLe.mpr h), max_eq_right h]
  · rw [max_eq_left (numLe.mpr h), max_eq_left h]

end XQ

/-!
## Value-level score semantics of the negamax alpha-beta search

`AggressiveChessPlayer._minimax` (src/chess_player_aggressive.py, lines
366-405) is a fail-soft negamax alpha-beta search over a mutable board;
its score semantics (board.push replaced by the child position it
produces) is captured below over an abstract view of the rules engine.
`moves` is the ordered legal-move list the player computes with
`_order_moves`, `child` is the position obtained by applying a move, and
`over` is the `board.is_game_over()` classification.
-/

/-- Abstract view of the rules-engine collaborator consumed by the score
semantics of a search: ordered legal moves, the child position a move
leads to, the static evaluation, and the game-over classification. -/
structure SearchRules (Pos M : Type) where
  moves : Pos → List M
  child : Pos → M → Pos
  evalPos : Pos → ℚ
  over : Pos → Bool

variable {Pos M : Type}

mutual

/-- Score semantics of `AggressiveChessPlayer._minimax`: depth-limited
negamax with fail-soft alpha-beta pruning.  At depth 0, at a game-over
position, or with no legal moves it returns the static evaluation;
otherwise it loops over the ordered moves. -/
def minimaxAB (R : SearchRules Pos M) (d : Nat) (p : Pos)
    (alpha beta : XQ) : XQ :=
  match d with
  | 0 => XQ.num (R.evalPos p)
  | d' + 1 =>
    if R.over p then XQ.num (R.evalPos p)
    else
      match R.moves p with
      | [] => XQ.num (R.evalPos p)
      | m :: rest => abLoop R d' p (m :: rest) XQ.ninf alpha beta
termination_by (d, 0, 0)

/-- The move loop of `_minimax`: each child is searched with negated,
swapped bounds, the running best score and alpha are updated, and the
loop breaks when `alpha >= beta`. -/
def abLoop (R : SearchRules Pos M) (d : Nat) (p : Pos) (ms : List M)
    (best alpha beta : XQ) : XQ :=
  match ms with
  | [] => best
  | m :: rest =>
    let s := (minimaxAB R d (R.child p m) beta.neg alpha.neg).neg
    let best1 := max best s
    let alpha1 := max alpha s
    if beta ≤ alpha1 then best1
    else abLoop R d p rest best1 alpha1 beta
termination_by (d, 1, ms.length)

end

mutual

/-- The same search without the alpha-beta bounds: a full fixed-depth
negamax minimax with the same evaluation function (the reference the
spec compares the pruned search against). -/
def minimaxFull (R : SearchRules Pos M) (d : Nat) (p : Pos) : XQ :=
  match d with
  | 0 => XQ.num (R.evalPos p)
  | d' + 1 =>
    if R.over p then XQ.num (R.evalPos p)
    else
      match R.moves p with
      | [] => XQ.num (R.evalPos p)
      | m :: rest => fullLoop R d' p (m :: rest) XQ.ninf
termination_by (d, 0, 0)

/-- The move loop of the full minimax: fold the negated child values into
the running maximum, with no cutoff. -/
def fullLoop (R : SearchRules Pos M) (d : Nat) (p : Pos) (ms : List M)
    (best : XQ) : XQ :=
  match ms with
  | [] => best
  | m :: rest =>
    fullLoop R d p rest (max best (minimaxFull R d (R.child p m)).neg)
termination_by (d, 1, ms.length)

end

theorem fullLoop_ge (R : SearchRules Pos M) (d : Nat) (p : Pos) :
    ∀ (ms : List M) (best : XQ), best ≤ fullLoop R d p ms best := by
  intro ms
  induction ms with
  | nil => intro best; rw [fullLoop]
  | cons m rest ih =>
    intro best
    rw [fullLoop]
    exact le_trans (le_max_left _ _) (ih _)

theorem abLoop_ge (R : SearchRules Pos M) (d : Nat) (p : Pos) :
    ∀ (ms : List M) (best alpha beta : XQ),
      best ≤ abLoop R d p ms best alpha beta := by
  intro ms
  induction ms with
  | nil => intro best alpha beta; rw [abLoop]
  | cons m rest ih =>
    intro best alpha beta
    rw [abLoop]
    by_cases hcut :
        beta ≤ max alpha (minimaxAB R d (R.child p m) beta.neg alpha.neg).neg
    · simp only [hcut, if_true]
      exact le_max_left _ _
    · simp only [hcut, if_false]
      exact le_trans (le_max_left _ _) (ih _ _ _)

/-- Core fail-soft invariant of the move loop.  When the pruned loop and
the full loop run over the same moves with accumulators that agree after
clamping into the `[alpha, beta]` window, the results agree after
clamping.  The child hypothesis is the node-level property one depth
down. -/
theorem abLoop_clamp (R : SearchRules Pos M) (d : Nat) (p : Pos) :
    ∀ (ms : List M) (b1 b2 a beta : XQ),
      (∀ m ∈ ms, ∀ a' b' : XQ, a' < b' →
        max a' (min b' (minimaxAB R d (R.child p m) a' b')) =
        max a' (min b' (minimaxFull R d (R.child p m)))) →
      b1 ≤ a → a < beta →
      max a (min beta b1) = max a (min beta b2) →
      max a (min beta (abLoop R d p ms b1 a beta)) =
      max a (min beta (fullLoop R d p ms b2)) := by
  intro ms
  induction ms with
  | nil =>
    intro b1 b2 a beta _ _ _ hinv
    rw [abLoop, fullLoop]
    exact hinv
  | cons m rest ih =>
    intro b1 b2 a beta hch hb1a hab hinv
    have hchm := hch m (List.mem_cons_self m rest)
    have hchr : ∀ m' ∈ rest, ∀ a' b' : XQ, a' < b' →
        max a' (min b' (minimaxAB R d (R.child p m') a' b')) =
        max a' (min b' (minimaxFull R d (R.child p m'))) :=
      fun m' hm' => hch m' (List.mem_cons_of_mem m hm')
    set rAB := minimaxAB R d (R.child p m) beta.neg a.neg with hrAB
    set v := minimaxFull R d (R.child p m) with hv
    have hcl : max beta.neg (min a.neg rAB) = max beta.neg (min a.neg v) :=
      hchm beta.neg a.neg ((XQ.negLt beta a).mpr hab)
    have hstar : min beta (max a rAB.neg) = min beta (max a v.neg) := by
      have := congrArg XQ.neg hcl
      rwa [XQ.negMax, XQ.negMax, XQ.negMin, XQ.negMin, XQ.negNeg,
        XQ.negNeg] at this
    -- invariant consequence used in both continue subcases
    have hb2le : min beta b2 ≤ a := by
      have h1 : min beta b1 = b1 := min_eq_right (le_of_lt (lt_of_le_of_lt hb1a hab))
      have h2 : max a (min beta b2) = a := by
        rw [← hinv, h1, max_eq_left hb1a]
      exact max_eq_left_iff.mp h2
    rw [abLoop, fullLoop]
    by_cases hcut : beta ≤ max a rAB.neg
    · -- pruning break: the clamped value is beta on both sides
      simp only [hcut, if_true]
      have hsbeta : beta ≤ rAB.neg := by
        rcases max_choice a rAB.neg with h | h
        · rw [h] at hcut; exact absurd hcut (not_le_of_lt hab)
        · rwa [h] at hcut
      have htbeta : beta ≤ v.neg := by
        have h1 : min beta (max a rAB.neg) = beta := min_eq_left hcut
        have h2 : beta ≤ max a v.neg := by
          rw [h1] at hstar
          exact min_eq_left_iff.mp hstar.symm
        rcases max_choice a v.neg with h | h
        · rw [h] at h2; exact absurd h2 (not_le_of_lt hab)
        · rwa [h] at h2
      have hb1s : max b1 rAB.neg = rAB.neg :=
        max_eq_right (le_trans hb1a (le_trans (le_of_lt hab) hsbeta))
      have hlhs : max a (min beta (max b1 rAB.neg)) = beta := by
        rw [hb1s, min_eq_left hsbeta, max_eq_right (le_of_lt hab)]
      have hrhs : max a (min beta (fullLoop R d p rest (max b2 v.neg))) = beta := by
        have hge : beta ≤ fullLoop R d p rest (max b2 v.neg) :=
          le_trans (le_trans htbeta (le_max_right b2 v.neg)) (fullLoop_ge R d p rest _)
        rw [min_eq_left hge, max_eq_right (le_of_lt hab)]
      rw [hlhs, hrhs]
    · -- no cutoff: the loop continues
      simp only [hcut, if_false]
      have hlt : max a rAB.neg < beta := lt_of_not_le hcut
      have hslt : rAB.neg < beta := lt_of_le_of_lt (le_max_right a rAB.neg) hlt
      by_cases hsa : rAB.neg ≤ a
      · -- reported child score is at most alpha: alpha unchanged
        have hmaxas : max a rAB.neg = a := max_eq_left hsa
        rw [hmaxas]
        have htle : min beta v.neg ≤ a := by
          have h1 : min beta (max a v.neg) = a := by
            rw [← hstar, hmaxas, min_eq_right (le_of_lt hab)]
          rw [min_max_distrib_left, min_eq_right (le_of_lt hab)] at h1
          exact max_eq_left_iff.mp h1
        refine ih (max b1 rAB.neg) (max b2 v.neg) a beta hchr
          (max_le hb1a hsa) hab ?_
        have hl : max a (min beta (max b1 rAB.neg)) = a := by
          have hb1' : max b1 rAB.neg ≤ a := max_le hb1a hsa
          rw [min_eq_right (le_of_lt (lt_of_le_of_lt hb1' hab)), max_eq_left hb1']
        have hr : max a (min beta (max b2 v.neg)) = a := by
          rw [min_max_distrib_left]
          exact max_eq_left (max_le hb2le htle)
        rw [hl, hr]
      · -- strictly improving child score: it is exact, alpha rises to it
        have has : a < rAB.neg := lt_of_not_le hsa
        have hmaxas : max a rAB.neg = rAB.neg := max_eq_right (le_of_lt has)
        have hts : v.neg = rAB.neg := by
          have h1 : min beta (max a v.neg) = rAB.neg := by
            rw [← hstar, hmaxas, min_eq_right (le_of_lt hslt)]
          have h2 : max a v.neg = rAB.neg := by
            rcases min_choice beta (max a v.neg) with h | h
            · rw [h] at h1
              exact absurd h1.symm (ne_of_lt hslt)
            · rw [h] at h1; exact h1
          rcases max_choice a v.neg with h | h
          · rw [h] at h2
            exact absurd h2 (ne_of_lt has)
          · rw [h] at h2; exact h2
        rw [hmaxas, hts]
        have hIH := ih (max b1 rAB.neg) (max b2 rAB.neg) rAB.neg beta hchr
          (max_le (le_trans hb1a (le_of_lt has)) (le_refl _)) hslt ?_
        · -- lift the clamp at level rAB.neg back to level a
          have hX : rAB.neg ≤ abLoop R d p rest (max b1 rAB.neg) rAB.neg beta :=
            le_trans (le_max_right b1 rAB.neg) (abLoop_ge R d p rest _ _ _)
          have hY : rAB.neg ≤ fullLoop R d p rest (max b2 rAB.neg) :=
            le_trans (le_max_right b2 rAB.neg) (fullLoop_ge R d p rest _)
          have hX' : rAB.neg ≤ min beta (abLoop R d p rest (max b1 rAB.neg) rAB.neg beta) :=
            le_min (le_of_lt hslt) hX
          have hY' : rAB.neg ≤ min beta (fullLoop R d p rest (max b2 rAB.neg)) :=
            le_min (le_of_lt hslt) hY
          have := hIH
          rw [max_eq_right hX', max_eq_right hY'] at this
          rw [this]
        · -- the two accumulators agree after clamping at level rAB.neg
          have hb1' : max b1 rAB.neg ≤ rAB.neg :=
            max_le (le_trans hb1a (le_of_lt has)) (le_refl _)
          have hl : max rAB.neg (min beta (max b1 rAB.neg)) = rAB.neg := by
            rw [min_eq_right (le_of_lt (lt_of_le_of_lt hb1' hslt)), max_eq_left hb1']
          have hr : max rAB.neg (min beta (max b2 rAB.neg)) = rAB.neg := by
            rw [min_max_distrib_left, min_eq_right (le_of_lt hslt)]
            rw [max_eq_right (le_trans hb2le (le_of_lt has)), max_self]
          rw [hl, hr]

/-- Node-level fail-soft property: within any window the pruned and the
full search agree after clamping into the window. -/
theorem minimax_clamp (R : SearchRules Pos M) :
    ∀ (d : Nat) (p : Pos) (a beta : XQ), a < beta →
      max a (min beta (minimaxAB R d p a beta)) =
      max a (min beta (minimaxFull R d p)) := by
  intro d
  induction d with
  | zero => intro p a beta _; rw [minimaxAB, minimaxFull]
  | succ d' ih =>
    intro p a beta hab
    rw [minimaxAB, minimaxFull]
    by_cases hover : R.over p
    · simp only [hover, if_true]
    · simp only [hover, if_false]
      cases hm : R.moves p with
      | nil => rfl
      | cons m rest =>
        exact abLoop_clamp R d' p (m :: rest) XQ.ninf XQ.ninf a beta
          (fun m' _ a' b' h' => ih (R.child p m') a' b' h')
          (XQ.ninf_le a) hab rfl

/-- With the initial full window (the float infinities of the source) the
alpha-beta search equals the full minimax exactly. -/
theorem minimaxAB_eq_full (R : SearchRules Pos M) (d : Nat) (p : Pos) :
    minimaxAB R d p XQ.ninf XQ.pinf = minimaxFull R d p := by
  have h := minimax_clamp R d p XQ.ninf XQ.pinf XQ.ninfLtPinf
  rwa [XQ.minPinf, XQ.minPinf, XQ.maxNinf, XQ.maxNinf] at h

/-- A score that is an actual number, not one of the float infinities. -/
def IsNum (x : XQ) : Prop := ∃ q : ℚ, x = XQ.num q

theorem IsNum.neg {x : XQ} (h : IsNum x) : IsNum x.neg := by
  obtain ⟨q, rfl⟩ := h
  exact ⟨-q, rfl⟩

theorem IsNum.ne_pinf {x : XQ} (h : IsNum x) : x ≠ XQ.pinf := by
  obtain ⟨q, rfl⟩ := h
  simp

theorem IsNum.max_left {x s : XQ} (hx : x ≠ XQ.pinf) (hs : IsNum s) :
    IsNum (max x s) := by
  obtain ⟨q, rfl⟩ := hs
  cases x with
  | ninf => rw [XQ.maxNinf]; exact ⟨q, rfl⟩
  | num r => rw [XQ.maxNum]; exact ⟨max r q, rfl⟩
  | pinf => exact absurd rfl hx

theorem abLoop_isNum (R : SearchRules Pos M) (d : Nat) (p : Pos) :
    ∀ (ms : List M) (best alpha beta : XQ),
      (∀ m ∈ ms, ∀ a' b' : XQ, IsNum (minimaxAB R d (R.child p m) a' b')) →
      best ≠ XQ.pinf → (IsNum best ∨ ms ≠ []) →
      IsNum (abLoop R d p ms best alpha beta) := by
  intro ms
  induction ms with
  | nil =>
    intro best alpha beta _ _ hne
    rw [abLoop]
    rcases hne with h | h
    · exact h
    · exact absurd rfl h
  | cons m rest ih =>
    intro best alpha beta hch hbp _
    rw [abLoop]
    have hs : IsNum (minimaxAB R d (R.child p m) beta.neg alpha.neg).neg :=
      (hch m (List.mem_cons_self m rest) beta.neg alpha.neg).neg
    have hb1 : IsNum (max best (minimaxAB R d (R.child p m) beta.neg alpha.neg).neg) :=
      IsNum.max_left hbp hs
    by_cases hcut :
        beta ≤ max alpha (minimaxAB R d (R.child p m) beta.neg alpha.neg).neg
    · simp only [hcut, if_true]
      exact hb1
    · simp only [hcut, if_false]
      exact ih _ _ _ (fun m' hm' => hch m' (List.mem_cons_of_mem m hm'))
        hb1.ne_pinf (Or.inl hb1)

/-- The pruned search always returns an actual number: leaves evaluate,
and a node with legal moves folds in its first child before any cutoff
test. -/
theorem minimaxAB_isNum (R : SearchRules Pos M) :
    ∀ (d : Nat) (p : Pos) (a b : XQ), IsNum (minimaxAB R d p a b) := by
  intro d
  induction d with
  | zero => intro p a b; rw [minimaxAB]; exact ⟨R.evalPos p, rfl⟩
  | succ d' ih =>
    intro p a b
    rw [minimaxAB]
    by_cases hover : R.over p
    · simp only [hover, if_true]; exact ⟨R.evalPos p, rfl⟩
    · simp only [hover, if_false]
      cases hm : R.moves p with
      | nil => exact ⟨R.evalPos p, rfl⟩
      | cons m rest =>
        exact abLoop_isNum R d' p (m :: rest) XQ.ninf a b
          (fun m' _ a' b' => ih (R.child p m') a' b')
          (by simp) (Or.inr (by simp))

/-- Root loop of `AggressiveChessPlayer.get_best_move` (lines 350-362 of
src/chess_player_aggressive.py): each root move is searched with the
window `(-beta, -alpha)` where beta stays the float infinity, the best
move is replaced only on a strict improvement, and alpha rises to the
returned score. -/
def rootLoop (R : SearchRules Pos M) (d : Nat) (p : Pos) (ms : List M)
    (bm : Option M) (best alpha : XQ) : Option M :=
  match ms with
  | [] => bm
  | m :: rest =>
    let s := (minimaxAB R d (R.child p m) XQ.pinf.neg alpha.neg).neg
    if best < s then rootLoop R d p rest (some m) s (max alpha s)
    else rootLoop R d p rest bm best (max alpha s)

/-- Value semantics of `AggressiveChessPlayer.get_best_move`: none when
there is no legal move, otherwise the root loop over the ordered moves
at depth `search_depth - 1`. -/
def getBestMove (R : SearchRules Pos M) (sd : Nat) (p : Pos) : Option M :=
  match R.moves p with
  | [] => none
  | m :: rest => rootLoop R (sd - 1) p (m :: rest) none XQ.ninf XQ.ninf

/-- The same root selection driven by the full (unpruned) minimax. -/
def rootLoopFull (R : SearchRules Pos M) (d : Nat) (p : Pos) (ms : List M)
    (bm : Option M) (best : XQ) : Option M :=
  match ms with
  | [] => bm
  | m :: rest =>
    let s := (minimaxFull R d (R.child p m)).neg
    if best < s then rootLoopFull R d p rest (some m) s
    else rootLoopFull R d p rest bm best

/-- Root selection by full minimax: the reference the spec compares the
pruned root against. -/
def getBestMoveFull (R : SearchRules Pos M) (sd : Nat) (p : Pos) : Option M :=
  match R.moves p with
  | [] => none
  | m :: rest => rootLoopFull R (sd - 1) p (m :: rest) none XQ.ninf

theorem ninf_lt_of_ne_pinf {x : XQ} (h : x ≠ XQ.pinf) : XQ.ninf < x.neg := by
  cases x with
  | ninf => exact XQ.ninfLtPinf
  | num q => exact XQ.ninfLtNum (-q)
  | pinf => exact absurd rfl h

/-- The root loop picks the same move whether the children are searched
with pruning (and the rising alpha window) or by full minimax: any
strictly improving score is exact, and non-improving scores cannot
improve in the full search either. -/
theorem rootLoop_eq (R : SearchRules Pos M) (d : Nat) (p : Pos) :
    ∀ (ms : List M) (bm : Option M) (best : XQ), best ≠ XQ.pinf →
      rootLoop R d p ms bm best best = rootLoopFull R d p ms bm best := by
  intro ms
  induction ms with
  | nil => intro bm best _; rw [rootLoop, rootLoopFull]
  | cons m rest ih =>
    intro bm best hbp
    rw [rootLoop, rootLoopFull]
    set rAB := minimaxAB R d (R.child p m) XQ.pinf.neg best.neg with hrAB
    set v := minimaxFull R d (R.child p m) with hv
    have hcl : max XQ.pinf.neg (min best.neg rAB) =
        max XQ.pinf.neg (min best.neg v) :=
      minimax_clamp R d (R.child p m) XQ.pinf.neg best.neg
        (ninf_lt_of_ne_pinf hbp)
    have hstar : max best rAB.neg = max best v.neg := by
      have h1 : min best.neg rAB = min best.neg v := by
        have h2 := hcl
        rw [show XQ.pinf.neg = XQ.ninf from rfl, XQ.maxNinf, XQ.maxNinf] at h2
        exact h2
      have := congrArg XQ.neg h1
      rwa [XQ.negMin, XQ.negMin, XQ.negNeg] at this
    have hnum : IsNum rAB.neg :=
      (minimaxAB_isNum R d (R.child p m) XQ.pinf.neg best.neg).neg
    by_cases hlt : best < rAB.neg
    · have hmax : max best rAB.neg = rAB.neg := max_eq_right (le_of_lt hlt)
      have hltf : best < v.neg := by
        by_contra hc
        have hvle : v.neg ≤ best := le_of_not_lt hc
        have : best = rAB.neg := by
          rw [← max_eq_left hvle, ← hstar, hmax]
        exact (ne_of_lt hlt) this
      have heq : v.neg = rAB.neg := by
        rw [← max_eq_right (le_of_lt hltf), ← hstar, hmax]
      simp only [hlt, if_true, hltf, if_true, hmax, heq]
      exact ih (some m) rAB.neg hnum.ne_pinf
    · have hsle : rAB.neg ≤ best := le_of_not_lt hlt
      have hltf : ¬ best < v.neg := by
        intro hc
        have : v.neg = best := by
          rw [← max_eq_right (le_of_lt hc), ← hstar, max_eq_left hsle]
        exact (ne_of_lt hc) this.symm
      simp only [hlt, if_false, hltf, if_false, max_eq_left hsle]
      exact ih bm best hbp

/-- The chosen root move is identical under pruned and full search. -/
theorem getBestMove_eq_full (R : SearchRules Pos M) (sd : Nat) (p : Pos) :
    getBestMove R sd p = getBestMoveFull R sd p := by
  rw [getBestMove, getBestMoveFull]
  cases hm : R.moves p with
  | nil => rfl
  | cons m rest => exact rootLoop_eq R (sd - 1) p (m :: rest) none XQ.ninf (by simp)

theorem rootLoop_mem (R : SearchRules Pos M) (d : Nat) (p : Pos) :
    ∀ (ms : List M) (bm : Option M) (best alpha : XQ),
      rootLoop R d p ms bm best alpha = bm ∨
      ∃ m ∈ ms, rootLoop R d p ms bm best alpha = some m := by
  intro ms
  induction ms with
  | nil => intro bm best alpha; left; rw [rootLoop]
  | cons m rest ih =>
    intro bm best alpha
    rw [rootLoop]
    by_cases hlt : best < (minimaxAB R d (R.child p m) XQ.pinf.neg alpha.neg).neg
    · simp only [hlt, if_true]
      rcases ih (some m) _ (max alpha _) with h | ⟨m', hm', h⟩
      · right; exact ⟨m, List.mem_cons_self m rest, h⟩
      · right; exact ⟨m', List.mem_cons_of_mem m hm', h⟩
    · simp only [hlt, if_false]
      rcases ih bm best (max alpha _) with h | ⟨m', hm', h⟩
      · left; exact h
      · right; exact ⟨m', List.mem_cons_of_mem m hm', h⟩

/-- With at least one legal move the root always returns one of them: the
first child is an actual number, hence strictly above the initial float
negative infinity, so the best move is set on the very first iteration. -/
theorem getBestMove_mem (R : SearchRules Pos M) (sd : Nat) (p : Pos)
    (h : R.moves p ≠ []) :
    ∃ m ∈ R.moves p, getBestMove R sd p = some m := by
  cases hm : R.moves p with
  | nil => exact absurd hm h
  | cons m rest =>
    simp only [getBestMove, hm]
    rw [rootLoop]
    obtain ⟨q, hq⟩ := (minimaxAB_isNum R (sd - 1) (R.child p m)
      XQ.pinf.neg XQ.ninf.neg).neg
    have hlt : XQ.ninf <
        (minimaxAB R (sd - 1) (R.child p m) XQ.pinf.neg XQ.ninf.neg).neg := by
      rw [hq]; exact XQ.ninfLtNum q
    simp only [hlt, if_true]
    rcases rootLoop_mem R (sd - 1) p rest (some m) _ _ with h' | ⟨m', hm', h'⟩
    · exact ⟨m, List.mem_cons_self m rest, h'⟩
    · exact ⟨m', List.mem_cons_of_mem m hm', h'⟩

/-!
## The rules-engine collaborator interface

Board geometry is concrete (squares are 0..63, a1 = 0, as in python-chess);
everything else the players ask of the rules engine is a field of the
`Engine` structure, together with the contracts the collaborator
guarantees: `pop` undoes `push`, and assigning `board.turn` overwrites the
turn so that a later assignment of the saved turn restores the board.
-/

/-- Piece kinds of the rules engine. -/
inductive PieceType : Type where
  | pawn | knight | bishop | rook | queen | king
deriving DecidableEq, Repr

/-- Board squares, 0 = a1 ... 63 = h8 as in python-chess. -/
abbrev Square : Type := Fin 64

/-- chess.square_file. -/
def squareFile (sq : Square) : Nat := sq.val % 8

/-- chess.square_rank. -/
def squareRank (sq : Square) : Nat := sq.val / 8

/-- chess.square(file_index, rank_index) = rank * 8 + file. -/
def mkSquare (f r : Nat) : Square := ⟨(r % 8) * 8 + f % 8, by omega⟩

/-- chess.square_mirror: flip a square vertically. -/
def squareMirror (sq : Square) : Square := mkSquare (squareFile sq) (7 - squareRank sq)

/-- chess.square_distance: Chebyshev distance between squares. -/
def squareDistance (a b : Square) : Nat :=
  max ((squareFile a : Int) - (squareFile b : Int)).natAbs
    ((squareRank a : Int) - (squareRank b : Int)).natAbs

/-- The abstract rules-engine collaborator (python-chess).  `B` is the
board type, `M` the move type; colors are Bool with true = White as in
python-chess.  The three final fields are the collaborator's contracts:
`pop` undoes a `push` (also of a null move), and turn assignment
overwrites so that re-assigning the saved turn restores the board. -/
structure Engine (B M : Type) where
  turn : B → Bool
  is_checkmate : B → Bool
  is_stalemate : B → Bool
  is_insufficient_material : B → Bool
  is_check : B → Bool
  is_game_over : B → Bool
  can_claim_draw : B → Bool
  piece_at : B → Square → Option (Bool × PieceType)
  attackers : B → Bool → Square → Nat
  attacks : B → Square → List Square
  king : B → Bool → Option Square
  has_kingside_castling_rights : B → Bool → Bool
  has_queenside_castling_rights : B → Bool → Bool
  legal_moves : B → List M
  is_capture : B → M → Bool
  to_square : M → Square
  from_square : M → Square
  promotion : M → Option PieceType
  push : B → M → B
  pushNull : B → B
  pop : B → B
  setTurn : B → Bool → B
  pop_push : ∀ b m, pop (push b m) = b
  pop_pushNull : ∀ b, pop (pushNull b) = b
  set_set : ∀ b c c', setTurn (setTurn b c) c' = setTurn b c'
  set_turn : ∀ b, setTurn b (turn b) = b

/-- Number of pieces of one color and kind on the board:
len(board.pieces(piece_type, color)). -/
def pieceCount {B M : Type} (E : Engine B M) (b : B) (c : Bool)
    (pt : PieceType) : Nat :=
  (List.finRange 64).countP (fun sq => E.piece_at b sq == some (c, pt))

/-- Number of pieces of one color on the board. -/
def colorCount {B M : Type} (E : Engine B M) (b : B) (c : Bool) : Nat :=
  (List.finRange 64).countP
    (fun sq => ((E.piece_at b sq).map Prod.fst) == some c)

/-!
## AggressiveChessPlayer (src/chess_player_aggressive.py)

Full translation.  Board-mutating steps (`board.push`/`board.pop` in move
ordering and search, `board.turn` assignment in the mobility probe) are
threaded explicitly: each function that mutates the board returns the
final board state beside its value, so that the non-mutation claims are
theorems about the returned state.
-/

namespace ACP

variable {B M : Type}

/-- Piece values (centipawns). -/
def PIECE_VALUES : PieceType → ℤ
  | .pawn => 100
  | .knight => 320
  | .bishop => 330
  | .rook => 500
  | .queen => 900
  | .king => 20000

/-- Bonus for attacking squares near the enemy king. -/
def KING_ATTACK_BONUS : ℤ := 15

/-- Bonus for pieces on aggressive squares. -/
def AGGRESSIVE_POSITION_BONUS : PieceType → ℤ
  | .pawn => 10
  | .knight => 20
  | .bishop => 15
  | .rook => 10
  | .queen => 25
  | .king => 0

/-- Center squares D4, D5, E4, E5. -/
def CENTER_SQUARES : List Square := [27, 35, 28, 36]

/-- The sixteen extended-center squares c3..f6. -/
def EXTENDED_CENTER : List Square :=
  [18, 26, 34, 42, 19, 27, 35, 43, 20, 28, 36, 44, 21, 29, 37, 45]

/-- Dict iteration order of PIECE_VALUES. -/
def PT_LIST : List PieceType :=
  [.pawn, .knight, .bishop, .rook, .queen, .king]

/-- _evaluate_material: material balance, White minus Black. -/
def evaluate_material (E : Engine B M) (b : B) : ℚ :=
  PT_LIST.foldl (fun score pt =>
    score + (PIECE_VALUES pt : ℚ) *
      ((pieceCount E b true pt : ℚ) - (pieceCount E b false pt : ℚ))) 0

/-- _evaluate_attacks: check bonus for the attacker plus per-square attack
pressure, 1.5-weighted on queens and rooks. -/
def evaluate_attacks (E : Engine B M) (b : B) : ℚ :=
  let checkBonus : ℚ :=
    if E.is_check b then (if E.turn b = false then 50 else -50) else 0
  (List.finRange 64).foldl (fun score sq =>
    match E.piece_at b sq with
    | none => score
    | some pc =>
      let atk : ℚ := (E.attackers b (!pc.1) sq : ℚ) * 10
      let atk : ℚ :=
        if pc.2 = PieceType.queen ∨ pc.2 = PieceType.rook
        then atk * 1.5 else atk
      if pc.1 then score - atk else score + atk) checkBonus

/-- _get_king_zone: the king square plus its in-board neighbours. -/
def get_king_zone (ksq : Square) : List Square :=
  let kf := squareFile ksq
  let kr := squareRank ksq
  ([-1, 0, 1] : List ℤ).foldl (fun zone df =>
    ([-1, 0, 1] : List ℤ).foldl (fun zone dr =>
      if df = 0 ∧ dr = 0 then zone
      else
        let f : ℤ := kf + df
        let r : ℤ := kr + dr
        if 0 ≤ f ∧ f ≤ 7 ∧ 0 ≤ r ∧ r ≤ 7
        then zone ++ [mkSquare f.toNat r.toNat] else zone) zone) [ksq]

/-- _evaluate_king_safety_differential: attacks on the two king zones and
the all-castling-rights-lost penalties. -/
def evaluate_king_safety_differential (E : Engine B M) (b : B) : ℚ :=
  match E.king b true, E.king b false with
  | some wk, some bk =>
    let wz := get_king_zone wk
    let bz := get_king_zone bk
    let s1 : ℚ := bz.foldl (fun s sq =>
      s + (E.attackers b true sq : ℚ) * (KING_ATTACK_BONUS : ℚ)) 0
    let s2 : ℚ := wz.foldl (fun s sq =>
      s - (E.attackers b false sq : ℚ) * (KING_ATTACK_BONUS : ℚ)) s1
    let s3 : ℚ :=
      if ¬ E.has_kingside_castling_rights b true ∧
          ¬ E.has_queenside_castling_rights b true
      then s2 - 10 else s2
    if ¬ E.has_kingside_castling_rights b false ∧
        ¬ E.has_queenside_castling_rights b false
    then s3 + 10 else s3
  | _, _ => 0

/-- _evaluate_piece_activity, threaded through the board: the mobility for
each side is probed by assigning `board.turn`, and the original turn is
re-assigned afterwards; the advanced-piece bonus is then read off the
(restored) board.  Returns the score and the final board state. -/
def evaluate_piece_activityT (E : Engine B M) (b : B) : ℚ × B :=
  let original_turn := E.turn b
  let b1 := E.setTurn b true
  let white_mobility := (E.legal_moves b1).length
  let b2 := E.setTurn b1 false
  let black_mobility := (E.legal_moves b2).length
  let b3 := E.setTurn b2 original_turn
  let score : ℚ := ((white_mobility : ℚ) - (black_mobility : ℚ)) * 5
  let score := (List.finRange 64).foldl (fun s sq =>
    match E.piece_at b3 sq with
    | none => s
    | some pc =>
      let rank := squareRank sq
      let bonus : ℚ :=
        if pc.1 = true ∧ 4 ≤ rank then
          (AGGRESSIVE_POSITION_BONUS pc.2 : ℚ) * ((rank : ℚ) - 3)
        else if pc.1 = false ∧ rank ≤ 3 then
          (AGGRESSIVE_POSITION_BONUS pc.2 : ℚ) * (4 - (rank : ℚ))
        else 0
      if pc.1 then s + bonus else s - bonus) score
  (score, b3)

/-- _evaluate_center_control. -/
def evaluate_center_control (E : Engine B M) (b : B) : ℚ :=
  let s1 : ℚ := CENTER_SQUARES.foldl (fun s sq =>
    let s : ℚ :=
      match E.piece_at b sq with
      | some pc => s + (if pc.1 then (30 : ℚ) else -30)
      | none => s
    s + ((E.attackers b true sq : ℚ) - (E.attackers b false sq : ℚ)) * 8) 0
  EXTENDED_CENTER.foldl (fun s sq =>
    if sq ∈ CENTER_SQUARES then s
    else
      s + ((E.attackers b true sq : ℚ) - (E.attackers b false sq : ℚ)) * 4) s1

/-- _evaluate_threats: hanging and under-defended pieces. -/
def evaluate_threats (E : Engine B M) (b : B) : ℚ :=
  (List.finRange 64).foldl (fun s sq =>
    match E.piece_at b sq with
    | none => s
    | some pc =>
      let atk := E.attackers b (!pc.1) sq
      let dfd := E.attackers b pc.1 sq
      if 0 < atk then
        if dfd = 0 then
          let tv : ℚ := (PIECE_VALUES pc.2 : ℚ) * 0.5
          if pc.1 then s - tv else s + tv
        else if dfd < atk then
          let tv : ℚ := (PIECE_VALUES pc.2 : ℚ) * 0.2
          if pc.1 then s - tv else s + tv
        else s
      else s) 0

/-- evaluate_position, threaded through the board.  Checkmate returns the
forced-loss sentinel for the side to move; stalemate and insufficient
material return 0; otherwise the six feature scores are summed from the
White-minus-Black perspective and the total is negated once when Black is
to move. -/
def evaluate_positionT (E : Engine B M) (b : B) : ℚ × B :=
  if E.is_checkmate b then ((if E.turn b then -99999 else 99999), b)
  else if E.is_stalemate b ∨ E.is_insufficient_material b then (0, b)
  else
    let score := evaluate_material E b
    let score := score + evaluate_attacks E b
    let score := score + evaluate_king_safety_differential E b
    let act := evaluate_piece_activityT E b
    let score := score + act.1
    let b1 := act.2
    let score := score + evaluate_center_control E b1
    let score := score + evaluate_threats E b1
    ((if E.turn b1 then score else -score), b1)

/-- The value of evaluate_position. -/
def evaluate_position (E : Engine B M) (b : B) : ℚ :=
  (evaluate_positionT E b).1

/-- The White-minus-Black feature total of evaluate_position on a
non-terminal position, before the perspective flip. -/
def absoluteScore (E : Engine B M) (b : B) : ℚ :=
  evaluate_material E b + evaluate_attacks E b +
    evaluate_king_safety_differential E b +
    (evaluate_piece_activityT E b).1 + evaluate_center_control E b +
    evaluate_threats E b

/-- move_score of _order_moves, threaded: the speculative push used to
detect check is popped before the remaining criteria are read. -/
def move_scoreT (E : Engine B M) (b : B) (m : M) : ℤ × B :=
  let s : ℤ := 0
  let s : ℤ :=
    if E.is_capture b m then
      match E.piece_at b (E.to_square m), E.piece_at b (E.from_square m) with
      | some captured, some attacker =>
        s + 10000 + PIECE_VALUES captured.2 - PIECE_VALUES attacker.2 / 10
      | _, _ => s
    else s
  let b1 := E.push b m
  let s : ℤ := if E.is_check b1 then s + 5000 else s
  let b2 := E.pop b1
  let s : ℤ :=
    match E.promotion m with
    | some pt => s + 8000 + PIECE_VALUES pt
    | none => s
  let s : ℤ :=
    if E.to_square m ∈ CENTER_SQUARES then s + 100
    else if E.to_square m ∈ EXTENDED_CENTER then s + 50 else s
  let s : ℤ :=
    match E.piece_at b2 (E.from_square m) with
    | some piece =>
      let tr : ℤ := squareRank (E.to_square m)
      let fr : ℤ := squareRank (E.from_square m)
      if piece.1 then s + (tr - fr) * 20 else s + (fr - tr) * 20
    | none => s
  (s, b2)

/-- Score every move in order (Python's sorted evaluates the key once per
element), threading the board through the speculative pushes. -/
def scoreMovesT (E : Engine B M) (b : B) : List M → List (M × ℤ) × B
  | [] => ([], b)
  | m :: rest =>
    let p := move_scoreT E b m
    let r := scoreMovesT E p.2 rest
    ((m, p.1) :: r.1, r.2)

/-- _order_moves: stable sort of the moves by score, descending (Python
sorted with reverse=True), threaded through the board. -/
def order_movesT (E : Engine B M) (b : B) (ms : List M) : List M × B :=
  let sc := scoreMovesT E b ms
  ((List.insertionSort (fun x y : M × ℤ => y.2 ≤ x.2) sc.1).map Prod.fst,
    sc.2)

/-- The ordered move list (value part of _order_moves). -/
def order_moves (E : Engine B M) (b : B) (ms : List M) : List M :=
  (order_movesT E b ms).1

mutual

/-- _minimax, threaded through the board: push, recurse with negated
swapped bounds, pop (also on the pruning break path). -/
def minimaxT (E : Engine B M) (d : Nat) (b : B) (alpha beta : XQ) :
    XQ × B :=
  match d with
  | 0 =>
    let e := evaluate_positionT E b
    (XQ.num e.1, e.2)
  | d' + 1 =>
    if E.is_game_over b then
      let e := evaluate_positionT E b
      (XQ.num e.1, e.2)
    else
      match E.legal_moves b with
      | [] =>
        let e := evaluate_positionT E b
        (XQ.num e.1, e.2)
      | m :: rest =>
        let om := order_movesT E b (m :: rest)
        minimaxLoopT E d' om.2 om.1 XQ.ninf alpha beta
termination_by (d, 0, 0)

/-- The move loop of the threaded _minimax. -/
def minimaxLoopT (E : Engine B M) (d : Nat) (b : B) (ms : List M)
    (best alpha beta : XQ) : XQ × B :=
  match ms with
  | [] => (best, b)
  | m :: rest =>
    let b1 := E.push b m
    let r := minimaxT E d b1 beta.neg alpha.neg
    let s := r.1.neg
    let b2 := E.pop r.2
    let best1 := max best s
    let alpha1 := max alpha s
    if beta ≤ alpha1 then (best1, b2)
    else minimaxLoopT E d b2 rest best1 alpha1 beta
termination_by (d, 1, ms.length)

end

/-- The root loop of get_best_move, threaded. -/
def rootLoopT (E : Engine B M) (d : Nat) (b : B) (ms : List M)
    (bm : Option M) (best alpha : XQ) : Option M × B :=
  match ms with
  | [] => (bm, b)
  | m :: rest =>
    let b1 := E.push b m
    let r := minimaxT E d b1 XQ.pinf.neg alpha.neg
    let s := r.1.neg
    let b2 := E.pop r.2
    if best < s then rootLoopT E d b2 rest (some m) s (max alpha s)
    else rootLoopT E d b2 rest bm best (max alpha s)

/-- get_best_move, threaded: None without legal moves, otherwise the root
loop over the ordered moves at depth search_depth - 1. -/
def get_best_moveT (E : Engine B M) (sd : Nat) (b : B) : Option M × B :=
  match E.legal_moves b with
  | [] => (none, b)
  | m :: rest =>
    let om := order_movesT E b (m :: rest)
    rootLoopT E (sd - 1) om.2 om.1 none XQ.ninf XQ.ninf

end ACP

namespace ACP

variable {B M : Type}

theorem activity_restores (E : Engine B M) (b : B) :
    (evaluate_piece_activityT E b).2 = b := by
  simp only [evaluate_piece_activityT]
  rw [E.set_set, E.set_set, E.set_turn]

theorem evaluate_positionT_restores (E : Engine B M) (b : B) :
    (evaluate_positionT E b).2 = b := by
  rw [evaluate_positionT]
  by_cases h1 : E.is_checkmate b
  · rw [if_pos h1]
  · rw [if_neg h1]
    by_cases h2 : E.is_stalemate b ∨ E.is_insufficient_material b
    · rw [if_pos h2]
    · rw [if_neg h2]
      exact activity_restores E b

theorem move_scoreT_restores (E : Engine B M) (b : B) (m : M) :
    (move_scoreT E b m).2 = b := by
  simp only [move_scoreT]
  rw [E.pop_push]

theorem scoreMovesT_restores (E : Engine B M) :
    ∀ (ms : List M) (b : B), (scoreMovesT E b ms).2 = b := by
  intro ms
  induction ms with
  | nil => intro b; rfl
  | cons m rest ih =>
    intro b
    rw [scoreMovesT]
    simp only
    rw [ih, move_scoreT_restores]

theorem order_movesT_restores (E : Engine B M) (b : B) (ms : List M) :
    (order_movesT E b ms).2 = b := by
  simp only [order_movesT]
  exact scoreMovesT_restores E ms b

theorem minimaxLoopT_restores (E : Engine B M) (d : Nat)
    (hnode : ∀ (b : B) (alpha beta : XQ), (minimaxT E d b alpha beta).2 = b) :
    ∀ (ms : List M) (b : B) (best alpha beta : XQ),
      (minimaxLoopT E d b ms best alpha beta).2 = b := by
  intro ms
  induction ms with
  | nil => intro b best alpha beta; rw [minimaxLoopT]
  | cons m rest ih =>
    intro b best alpha beta
    rw [minimaxLoopT]
    simp only [hnode, E.pop_push]
    by_cases hcut : beta ≤ max alpha
        (minimaxT E d (E.push b m) beta.neg alpha.neg).1.neg
    · simp only [hcut, if_true]
    · simp only [hcut, if_false]
      rw [ih]

/-- Every push in the search recursion is undone, including on the
pruning break path: the board returned by _minimax is the input board. -/
theorem minimaxT_restores (E : Engine B M) :
    ∀ (d : Nat) (b : B) (alpha beta : XQ),
      (minimaxT E d b alpha beta).2 = b := by
  intro d
  induction d with
  | zero =>
    intro b alpha beta
    rw [minimaxT]
    exact evaluate_positionT_restores E b
  | succ d' ih =>
    intro b alpha beta
    rw [minimaxT]
    by_cases hover : E.is_game_over b
    · rw [if_pos hover]
      exact evaluate_positionT_restores E b
    · rw [if_neg hover]
      cases hm : E.legal_moves b with
      | nil => exact evaluate_positionT_restores E b
      | cons m rest =>
        simp only
        rw [minimaxLoopT_restores E d' ih, order_movesT_restores]

theorem rootLoopT_restores (E : Engine B M) (d : Nat) :
    ∀ (ms : List M) (b : B) (bm : Option M) (best alpha : XQ),
      (rootLoopT E d b ms bm best alpha).2 = b := by
  intro ms
  induction ms with
  | nil => intro b bm best alpha; rfl
  | cons m rest ih =>
    intro b bm best alpha
    rw [rootLoopT]
    simp only [minimaxT_restores, E.pop_push]
    by_cases hlt : best <
        (minimaxT E d (E.push b m) XQ.pinf.neg alpha.neg).1.neg
    · simp only [hlt, if_true]
      rw [ih]
    · simp only [hlt, if_false]
      rw [ih]

theorem get_best_moveT_restores (E : Engine B M) (sd : Nat) (b : B) :
    (get_best_moveT E sd b).2 = b := by
  rw [get_best_moveT]
  cases hm : E.legal_moves b with
  | nil => rfl
  | cons m rest =>
    simp only
    rw [rootLoopT_restores, order_movesT_restores]

theorem scoreMovesT_fst (E : Engine B M) :
    ∀ (ms : List M) (b : B), (scoreMovesT E b ms).1.map Prod.fst = ms := by
  intro ms
  induction ms with
  | nil => intro b; rfl
  | cons m rest ih =>
    intro b
    rw [scoreMovesT]
    simp only [List.map_cons, List.cons.injEq]
    exact ⟨trivial, ih _⟩

theorem scoreMovesT_length (E : Engine B M) :
    ∀ (ms : List M) (b : B), (scoreMovesT E b ms).1.length = ms.length := by
  intro ms b
  have := congrArg List.length (scoreMovesT_fst E ms b)
  rwa [List.length_map] at this

theorem order_moves_length (E : Engine B M) (b : B) (ms : List M) :
    (order_moves E b ms).length = ms.length := by
  rw [order_moves, order_movesT]
  simp only [List.length_map]
  rw [(List.perm_insertionSort _ _).length_eq]
  exact scoreMovesT_length E ms b

theorem order_moves_mem (E : Engine B M) (b : B) (ms : List M) (m : M)
    (h : m ∈ order_moves E b ms) : m ∈ ms := by
  rw [order_moves, order_movesT] at h
  simp only [List.mem_map] at h
  obtain ⟨pr, hpr, rfl⟩ := h
  have hmem : pr ∈ (scoreMovesT E b ms).1 :=
    (List.perm_insertionSort _ _).mem_iff.mp hpr
  have : pr.1 ∈ (scoreMovesT E b ms).1.map Prod.fst :=
    List.mem_map_of_mem Prod.fst hmem
  rwa [scoreMovesT_fst] at this

/-- The value-level view of the rules engine as the aggressive player's
search consumes it: moves come pre-ordered by _order_moves. -/
def searchRules (E : Engine B M) : SearchRules B M where
  moves := fun b => order_moves E b (E.legal_moves b)
  child := E.push
  evalPos := evaluate_position E
  over := E.is_game_over

theorem searchRules_moves (E : Engine B M) (b : B) :
    (searchRules E).moves b = order_moves E b (E.legal_moves b) := rfl

theorem searchRules_child (E : Engine B M) :
    (searchRules E).child = E.push := rfl

theorem searchRules_evalPos (E : Engine B M) :
    (searchRules E).evalPos = evaluate_position E := rfl

theorem searchRules_over (E : Engine B M) :
    (searchRules E).over = E.is_game_over := rfl

theorem minimaxLoopT_val (E : Engine B M) (d : Nat)
    (hnode : ∀ (b : B) (alpha beta : XQ),
      (minimaxT E d b alpha beta).1 = minimaxAB (searchRules E) d b alpha beta) :
    ∀ (ms : List M) (b : B) (best alpha beta : XQ),
      (minimaxLoopT E d b ms best alpha beta).1 =
        abLoop (searchRules E) d b ms best alpha beta := by
  intro ms
  induction ms with
  | nil => intro b best alpha beta; rw [minimaxLoopT, abLoop]
  | cons m rest ih =>
    intro b best alpha beta
    rw [minimaxLoopT, abLoop]
    simp only [searchRules_child, hnode, minimaxT_restores, E.pop_push]
    by_cases hcut : beta ≤ max alpha
        (minimaxAB (searchRules E) d (E.push b m) beta.neg alpha.neg).neg
    · simp only [hcut, if_true]
    · simp only [hcut, if_false]
      exact ih b _ _ _

/-- The threaded search computes exactly the value-level score. -/
theorem minimaxT_val (E : Engine B M) :
    ∀ (d : Nat) (b : B) (alpha beta : XQ),
      (minimaxT E d b alpha beta).1 = minimaxAB (searchRules E) d b alpha beta := by
  intro d
  induction d with
  | zero => intro b alpha beta; rw [minimaxT, minimaxAB]; rfl
  | succ d' ih =>
    intro b alpha beta
    rw [minimaxT, minimaxAB]
    simp only [searchRules_over, searchRules_evalPos]
    by_cases hover : E.is_game_over b
    · rw [if_pos hover, if_pos hover]; rfl
    · rw [if_neg hover, if_neg hover]
      have hmv : (searchRules E).moves b = order_moves E b (E.legal_moves b) := rfl
      cases hm : E.legal_moves b with
      | nil =>
        rw [hm] at hmv
        rw [hmv]
        rfl
      | cons m rest =>
        rw [hm] at hmv
        have hlen : ((searchRules E).moves b).length = (m :: rest).length := by
          rw [hmv, order_moves_length]
        cases hrm : (searchRules E).moves b with
        | nil => rw [hrm] at hlen; simp at hlen
        | cons m' rest' =>
          show (minimaxLoopT E d' (order_movesT E b (m :: rest)).2
              (order_movesT E b (m :: rest)).1 XQ.ninf alpha beta).1 =
            abLoop (searchRules E) d' b (m' :: rest') XQ.ninf alpha beta
          have hom : (order_movesT E b (m :: rest)).1 = m' :: rest' := by
            rw [← hrm, hmv]; rfl
          rw [order_movesT_restores, hom]
          exact minimaxLoopT_val E d' ih (m' :: rest') b XQ.ninf alpha beta

theorem rootLoopT_val (E : Engine B M) (d : Nat) :
    ∀ (ms : List M) (b : B) (bm : Option M) (best alpha : XQ),
      (rootLoopT E d b ms bm best alpha).1 =
        rootLoop (searchRules E) d b ms bm best alpha := by
  intro ms
  induction ms with
  | nil => intro b bm best alpha; rw [rootLoopT, rootLoop]
  | cons m rest ih =>
    intro b bm best alpha
    rw [rootLoopT, rootLoop]
    simp only [searchRules_child, minimaxT_val, minimaxT_restores, E.pop_push]
    by_cases hlt : best <
        (minimaxAB (searchRules E) d (E.push b m) XQ.pinf.neg alpha.neg).neg
    · simp only [hlt, if_true]
      exact ih b _ _ _
    · simp only [hlt, if_false]
      exact ih b _ _ _

/-- The threaded root selection computes the value-level best move. -/
theorem get_best_moveT_val (E : Engine B M) (sd : Nat) (b : B) :
    (get_best_moveT E sd b).1 = getBestMove (searchRules E) sd b := by
  rw [get_best_moveT, getBestMove]
  have hmv : (searchRules E).moves b = order_moves E b (E.legal_moves b) := rfl
  cases hm : E.legal_moves b with
  | nil =>
    rw [hm] at hmv
    rw [hmv]
    rfl
  | cons m rest =>
    rw [hm] at hmv
    have hlen : ((searchRules E).moves b).length = (m :: rest).length := by
      rw [hmv, order_moves_length]
    cases hrm : (searchRules E).moves b with
    | nil => rw [hrm] at hlen; simp at hlen
    | cons m' rest' =>
      show (rootLoopT E (sd - 1) (order_movesT E b (m :: rest)).2
          (order_movesT E b (m :: rest)).1 none XQ.ninf XQ.ninf).1 =
        rootLoop (searchRules E) (sd - 1) b (m' :: rest') none XQ.ninf XQ.ninf
      have hom : (order_movesT E b (m :: rest)).1 = m' :: rest' := by
        rw [← hrm, hmv]; rfl
      rw [order_movesT_restores, hom]
      exact rootLoopT_val E (sd - 1) (m' :: rest') b none XQ.ninf XQ.ninf

end ACP

/-!
## DefensiveChessPlayer (src/chess_player_defensive.py)

Translation of the evaluator.  It is a pure read of the board (no push,
pop or turn assignment), returns an integer score, and — unlike the
aggressive evaluator — its docstring and code state the score from
White's perspective ("positive favors White") with no final negation for
the side to move.  Python's `int(x * 1.5)` / `int(x * 0.5)` truncate
toward zero, modelled by `Int.tdiv` (the float products are exact at the
values that occur).
-/

namespace DCP

variable {B M : Type}

def PIECE_VALUES : PieceType → ℤ
  | .pawn => 100
  | .knight => 320
  | .bishop => 330
  | .rook => 500
  | .queen => 900
  | .king => 20000

def PAWN_TABLE : List ℤ :=
  [0, 0, 0, 0, 0, 0, 0, 0,
   50, 50, 50, 50, 50, 50, 50, 50,
   10, 10, 20, 30, 30, 20, 10, 10,
   5, 5, 10, 25, 25, 10, 5, 5,
   0, 0, 0, 20, 20, 0, 0, 0,
   5, -5, -10, 0, 0, -10, -5, 5,
   5, 10, 10, -20, -20, 10, 10, 5,
   0, 0, 0, 0, 0, 0, 0, 0]

def KNIGHT_TABLE : List ℤ :=
  [-50, -40, -30, -30, -30, -30, -40, -50,
   -40, -20, 0, 0, 0, 0, -20, -40,
   -30, 0, 10, 15, 15, 10, 0, -30,
   -30, 5, 15, 20, 20, 15, 5, -30,
   -30, 0, 15, 20, 20, 15, 0, -30,
   -30, 5, 10, 15, 15, 10, 5, -30,
   -40, -20, 0, 5, 5, 0, -20, -40,
   -50, -40, -30, -30, -30, -30, -40, -50]

def BISHOP_TABLE : List ℤ :=
  [-20, -10, -10, -10, -10, -10, -10, -20,
   -10, 0, 0, 0, 0, 0, 0, -10,
   -10, 0, 5, 10, 10, 5, 0, -10,
   -10, 5, 5, 10, 10, 5, 5, -10,
   -10, 0, 10, 10, 10, 10, 0, -10,
   -10, 10, 10, 10, 10, 10, 10, -10,
   -10, 5, 0, 0, 0, 0, 5, -10,
   -20, -10, -10, -10, -10, -10, -10, -20]

def ROOK_TABLE : List ℤ :=
  [0, 0, 0, 0, 0, 0, 0, 0,
   5, 10, 10, 10, 10, 10, 10, 5,
   -5, 0, 0, 0, 0, 0, 0, -5,
   -5, 0, 0, 0, 0, 0, 0, -5,
   -5, 0, 0, 0, 0, 0, 0, -5,
   -5, 0, 0, 0, 0, 0, 0, -5,
   -5, 0, 0, 0, 0, 0, 0, -5,
   0, 0, 0, 5, 5, 0, 0, 0]

def QUEEN_TABLE : List ℤ :=
  [-20, -10, -10, -5, -5, -10, -10, -20,
   -10, 0, 0, 0, 0, 0, 0, -10,
   -10, 0, 5, 5, 5, 5, 0, -10,
   -5, 0, 5, 5, 5, 5, 0, -5,
   0, 0, 5, 5, 5, 5, 0, -5,
   -10, 5, 5, 5, 5, 5, 0, -10,
   -10, 0, 5, 0, 0, 0, 0, -10,
   -20, -10, -10, -5, -5, -10, -10, -20]

def KING_MIDDLEGAME_TABLE : List ℤ :=
  [-30, -40, -40, -50, -50, -40, -40, -30,
   -30, -40, -40, -50, -50, -40, -40, -30,
   -30, -40, -40, -50, -50, -40, -40, -30,
   -30, -40, -40, -50, -50, -40, -40, -30,
   -20, -30, -30, -40, -40, -30, -30, -20,
   -10, -20, -20, -20, -20, -20, -20, -10,
   20, 20, 0, 0, 0, 0, 20, 20,
   20, 30, 10, 0, 0, 10, 30, 20]

def KING_ENDGAME_TABLE : List ℤ :=
  [-50, -40, -30, -20, -20, -30, -40, -50,
   -30, -20, -10, 0, 0, -10, -20, -30,
   -30, -10, 20, 30, 30, 20, -10, -30,
   -30, -10, 30, 40, 40, 30, -10, -30,
   -30, -10, 30, 40, 40, 30, -10, -30,
   -30, -10, 20, 30, 30, 20, -10, -30,
   -30, -30, 0, 0, 0, 0, -30, -30,
   -50, -30, -30, -30, -30, -30, -30, -50]

/-- _is_endgame: no queens at all, or at most one minor and one major for
each side. -/
def is_endgame (E : Engine B M) (b : B) : Bool :=
  let queens := pieceCount E b true .queen + pieceCount E b false .queen
  if queens = 0 then true
  else
    let white_minor := pieceCount E b true .knight + pieceCount E b true .bishop
    let black_minor := pieceCount E b false .knight + pieceCount E b false .bishop
    let white_major := pieceCount E b true .rook + pieceCount E b true .queen
    let black_major := pieceCount E b false .rook + pieceCount E b false .queen
    white_minor ≤ 1 && black_minor ≤ 1 && white_major ≤ 1 && black_major ≤ 1

/-- _get_piece_square_value: piece-square table lookup, mirrored for
Black. -/
def get_piece_square_value (piece : Bool × PieceType) (sq : Square)
    (endg : Bool) : ℤ :=
  let sq := if piece.1 = false then squareMirror sq else sq
  match piece.2 with
  | .pawn => PAWN_TABLE.getD sq.val 0
  | .knight => KNIGHT_TABLE.getD sq.val 0
  | .bishop => BISHOP_TABLE.getD sq.val 0
  | .rook => ROOK_TABLE.getD sq.val 0
  | .queen => QUEEN_TABLE.getD sq.val 0
  | .king =>
    if endg then KING_ENDGAME_TABLE.getD sq.val 0
    else KING_MIDDLEGAME_TABLE.getD sq.val 0

/-- _evaluate_king_safety for one color. -/
def evaluate_king_safety (E : Engine B M) (b : B) (color : Bool) : ℤ :=
  match E.king b color with
  | none => -10000
  | some king_square =>
    let king_file := squareFile king_square
    let king_rank := squareRank king_square
    let s : ℤ := 0
    let s : ℤ := if E.has_kingside_castling_rights b color then s + 20 else s
    let s : ℤ := if E.has_queenside_castling_rights b color then s + 15 else s
    let shield_squares : List Square :=
      ([-1, 0, 1] : List ℤ).foldl (fun acc file_offset =>
        let f : ℤ := (king_file : ℤ) + file_offset
        if 0 ≤ f ∧ f ≤ 7 then
          (if color then
            [(king_rank : ℤ) + 1, (king_rank : ℤ) + 2]
          else
            [(king_rank : ℤ) - 1, (king_rank : ℤ) - 2]).foldl
            (fun acc r =>
              if 0 ≤ r ∧ r ≤ 7 then acc ++ [mkSquare f.toNat r.toNat]
              else acc) acc
        else acc) []
    let pawn_shield_bonus : ℤ := shield_squares.foldl (fun acc sq =>
      match E.piece_at b sq with
      | some pc =>
        if pc.2 = PieceType.pawn ∧ pc.1 = color then acc + 15 else acc
      | none => acc) 0
    let s := s + pawn_shield_bonus
    let s : ℤ := ([-1, 0, 1] : List ℤ).foldl (fun s file_offset =>
      let f : ℤ := (king_file : ℤ) + file_offset
      if 0 ≤ f ∧ f ≤ 7 then
        let has_own_pawn := (List.range 8).any (fun r =>
          match E.piece_at b (mkSquare f.toNat r) with
          | some pc => pc.2 = PieceType.pawn && pc.1 = color
          | none => false)
        let has_enemy_pawn := (List.range 8).any (fun r =>
          match E.piece_at b (mkSquare f.toNat r) with
          | some pc => pc.2 = PieceType.pawn && pc.1 = !color
          | none => false)
        if ¬ has_own_pawn ∧ ¬ has_enemy_pawn then s - 25
        else if ¬ has_own_pawn then s - 15
        else s
      else s) s
    let king_zone := E.attacks b king_square ++ [king_square]
    let attackers_count : ℤ := king_zone.foldl (fun acc sq =>
      acc + (E.attackers b (!color) sq : ℤ)) 0
    s - attackers_count * 8

/-- _evaluate_pawn_structure for one color. -/
def evaluate_pawn_structure (E : Engine B M) (b : B) (color : Bool) : ℤ :=
  let pawns := (List.finRange 64).filter
    (fun sq => E.piece_at b sq == some (color, PieceType.pawn))
  let pawn_files := pawns.map squareFile
  pawns.foldl (fun score pawn_sq =>
    let pawn_file := squareFile pawn_sq
    let pawn_rank := squareRank pawn_sq
    let score : ℤ :=
      if 1 < pawn_files.count pawn_file then score - 20 else score
    let has_neighbor :=
      (pawn_file : ℤ) - 1 ∈ pawn_files.map (fun f => (f : ℤ)) ∨
        (pawn_file : ℤ) + 1 ∈ pawn_files.map (fun f => (f : ℤ))
    let score : ℤ := if ¬ has_neighbor then score - 25 else score
    let score : ℤ :=
      ([(pawn_file : ℤ) - 1, (pawn_file : ℤ) + 1] : List ℤ).foldl
        (fun score (adj_file : ℤ) =>
        if 0 ≤ adj_file ∧ adj_file ≤ 7 then
          let connected := ([-1, 0, 1] : List ℤ).any (fun r_offset =>
            let check_rank : ℤ := (pawn_rank : ℤ) + r_offset
            if 0 ≤ check_rank ∧ check_rank ≤ 7 then
              match E.piece_at b (mkSquare adj_file.toNat check_rank.toNat) with
              | some pc => pc.2 = PieceType.pawn && pc.1 = color
              | none => false
            else false)
          if connected then score + 10 else score
        else score) score
    let aheadRanks : List Nat :=
      if color then (List.range 8).filter (fun r => pawn_rank < r)
      else (List.range 8).filter (fun r => r < pawn_rank)
    let blocked :=
      ([(pawn_file : ℤ) - 1, (pawn_file : ℤ), (pawn_file : ℤ) + 1] : List ℤ).any
      (fun (check_file : ℤ) =>
        if 0 ≤ check_file ∧ check_file ≤ 7 then
          aheadRanks.any (fun r =>
            match E.piece_at b (mkSquare check_file.toNat r) with
            | some pc => pc.2 = PieceType.pawn && pc.1 = !color
            | none => false)
        else false)
    if ¬ blocked then
      if color then score + 20 + (pawn_rank : ℤ) * 10
      else score + 20 + (7 - (pawn_rank : ℤ)) * 10
    else score) 0

/-- _evaluate_piece_coordination for one color. -/
def evaluate_piece_coordination (E : Engine B M) (b : B) (color : Bool) : ℤ :=
  let s : ℤ := (List.finRange 64).foldl (fun s sq =>
    match E.piece_at b sq with
    | some pc =>
      if pc.1 = color ∧ pc.2 ≠ PieceType.king then
        let defenders := E.attackers b color sq
        let s := s + (defenders : ℤ) * 5
        if defenders < E.attackers b (!color) sq then s - 15 else s
      else s
    | none => s) 0
  let s : ℤ := ([27, 35, 28, 36] : List Square).foldl (fun s sq =>
    if 0 < E.attackers b color sq then s + 8 else s) s
  let s : ℤ := if 2 ≤ pieceCount E b color .bishop then s + 30 else s
  let rooks := (List.finRange 64).filter
    (fun sq => E.piece_at b sq == some (color, PieceType.rook))
  rooks.foldl (fun s rook_sq =>
    let rook_file := squareFile rook_sq
    let has_any_pawn := (List.range 8).any (fun r =>
      match E.piece_at b (mkSquare rook_file r) with
      | some pc => pc.2 = PieceType.pawn
      | none => false)
    let has_own_pawn := (List.range 8).any (fun r =>
      match E.piece_at b (mkSquare rook_file r) with
      | some pc => pc.2 = PieceType.pawn && pc.1 = color
      | none => false)
    if ¬ has_any_pawn then s + 20
    else if ¬ has_own_pawn then s + 10
    else s) s

/-- evaluate_position of the DefensiveChessPlayer: terminal shortcuts
(including claimable draws), then material + piece-square values, king
safety (weight 2.0, or 0.5 in the endgame), pawn structure (weight 1.5),
piece coordination, and a check penalty — all from White's perspective,
with no negation for the side to move. -/
def evaluate_position (E : Engine B M) (b : B) : ℤ :=
  if E.is_checkmate b then (if E.turn b then -100000 else 100000)
  else if E.is_stalemate b ∨ E.is_insufficient_material b then 0
  else if E.can_claim_draw b then 0
  else
    let endg := is_endgame E b
    let score : ℤ := (List.finRange 64).foldl (fun score sq =>
      match E.piece_at b sq with
      | some piece =>
        let value := PIECE_VALUES piece.2 + get_piece_square_value piece sq endg
        if piece.1 then score + value else score - value
      | none => score) 0
    let wks := evaluate_king_safety E b true
    let bks := evaluate_king_safety E b false
    let score : ℤ := score +
      (if ¬ endg then (wks - bks) * 2 else Int.tdiv (wks - bks) 2)
    let wps := evaluate_pawn_structure E b true
    let bps := evaluate_pawn_structure E b false
    let score : ℤ := score + Int.tdiv ((wps - bps) * 3) 2
    let score : ℤ := score + evaluate_piece_coordination E b true -
      evaluate_piece_coordination E b false
    if E.is_check b then
      if E.turn b then score - 50 else score + 50
    else score

/-- Modelled from the spec: the claim's reading of the defensive
evaluator, in which the White-minus-Black total is negated exactly once
at the outermost level when the side to move is Black, so that the
returned value is positive-good for the side about to move.  (The code
itself performs no such negation.) -/
def evaluate_position_stm (E : Engine B M) (b : B) : ℤ :=
  if E.turn b then evaluate_position E b else -(evaluate_position E b)

end DCP

/-!
## AggressivePlayer (src/chess_players/aggressive_player.py)

Translation of `_evaluate_position` and its helpers (all integer
arithmetic).  The checkmate sentinel here is ±20000 — the same number as
the king entry of PIECE_VALUES.
-/

namespace AGP

variable {B M : Type}

def PIECE_VALUES : PieceType → ℤ
  | .pawn => 100
  | .knight => 320
  | .bishop => 330
  | .rook => 500
  | .queen => 900
  | .king => 20000

def CENTER_SQUARES : List Square := [28, 27, 36, 35]

def EXTENDED_CENTER : List Square :=
  [18, 19, 20, 21, 26, 29, 34, 37, 42, 43, 44, 45]

def KING_ZONE_OFFSETS : List (ℤ × ℤ) :=
  [(-1, -1), (-1, 0), (-1, 1), (0, -1), (0, 0), (0, 1), (1, -1), (1, 0),
    (1, 1)]

def PT_LIST : List PieceType :=
  [.pawn, .knight, .bishop, .rook, .queen, .king]

/-- _evaluate_material. -/
def evaluate_material (E : Engine B M) (b : B) : ℤ :=
  PT_LIST.foldl (fun score pt =>
    score + PIECE_VALUES pt *
      ((pieceCount E b true pt : ℤ) - (pieceCount E b false pt : ℤ))) 0

/-- _evaluate_center_control. -/
def evaluate_center_control (E : Engine B M) (b : B) : ℤ :=
  let s : ℤ := CENTER_SQUARES.foldl (fun s sq =>
    match E.piece_at b sq with
    | some pc => s + (if pc.1 then 30 else -30)
    | none => s) 0
  let s : ℤ := EXTENDED_CENTER.foldl (fun s sq =>
    match E.piece_at b sq with
    | some pc => s + (if pc.1 then 10 else -10)
    | none => s) s
  CENTER_SQUARES.foldl (fun s sq =>
    s + ((E.attackers b true sq : ℤ) - (E.attackers b false sq : ℤ)) * 5) s

/-- _count_king_zone_attacks. -/
def count_king_zone_attacks (E : Engine B M) (b : B) (king_square : Square)
    (attacking_color : Bool) : Nat :=
  KING_ZONE_OFFSETS.foldl (fun attacks off =>
    let target_file : ℤ := (squareFile king_square : ℤ) + off.1
    let target_rank : ℤ := (squareRank king_square : ℤ) + off.2
    if 0 ≤ target_file ∧ target_file ≤ 7 ∧ 0 ≤ target_rank ∧ target_rank ≤ 7
    then attacks +
      E.attackers b attacking_color (mkSquare target_file.toNat target_rank.toNat)
    else attacks) 0

/-- _evaluate_king_attack. -/
def evaluate_king_attack (E : Engine B M) (b : B) : ℤ :=
  let s : ℤ :=
    match E.king b false with
    | some bk => (count_king_zone_attacks E b bk true : ℤ) * 15
    | none => 0
  match E.king b true with
  | some wk => s - (count_king_zone_attacks E b wk false : ℤ) * 15
  | none => s

/-- _evaluate_mobility: legal-move count for the side to move, then for
the opponent after a null move. -/
def evaluate_mobility (E : Engine B M) (b : B) : ℤ :=
  let current_moves := (E.legal_moves b).length
  let opponent_moves := (E.legal_moves (E.pushNull b)).length
  let mobility_diff : ℤ := (current_moves : ℤ) - (opponent_moves : ℤ)
  if E.turn b then mobility_diff * 2 else -mobility_diff * 2

/-- _evaluate_position of AggressivePlayer: ±20000 checkmate sentinels,
0 for stalemate and insufficient material, otherwise material + center
control + king attack + mobility + check penalty, from White's
perspective. -/
def evaluate_position (E : Engine B M) (b : B) : ℤ :=
  if E.is_checkmate b then (if E.turn b then -20000 else 20000)
  else if E.is_stalemate b ∨ E.is_insufficient_material b then 0
  else
    let score : ℤ := evaluate_material E b
    let score := score + evaluate_center_control E b
    let score := score + evaluate_king_attack E b
    let score := score + evaluate_mobility E b
    if E.is_check b then
      score + (if E.turn b then -50 else 50)
    else score

end AGP

/-!
## AggressiveAttacker (src/chess_players/aggressive_attacker.py)

Translation of `_order_moves`, `_alpha_beta`, `get_best_move` and
`_evaluate_position`.  This player keeps state: `move_history`, appended
to by `get_best_move` and consulted (by length) in both the move
ordering (development bonus, first 10 moves) and the evaluation
(development term, first 20 moves); `aggression_factor` is the
construction-time multiplier (default 1.5).
-/

namespace AAT

variable {B M : Type}

def PIECE_VALUES : PieceType → ℤ
  | .pawn => 100
  | .knight => 300
  | .bishop => 320
  | .rook => 500
  | .queen => 900
  | .king => 0

def PAWN_TABLE : List ℤ :=
  [0, 0, 0, 0, 0, 0, 0, 0,
   50, 50, 50, 50, 50, 50, 50, 50,
   15, 20, 30, 40, 40, 30, 20, 15,
   10, 15, 25, 35, 35, 25, 15, 10,
   5, 10, 20, 30, 30, 20, 10, 5,
   5, 5, 10, 25, 25, 10, 5, 5,
   5, 5, 5, -10, -10, 5, 5, 5,
   0, 0, 0, 0, 0, 0, 0, 0]

def KNIGHT_TABLE : List ℤ :=
  [-50, -30, -20, -20, -20, -20, -30, -50,
   -30, -10, 10, 15, 15, 10, -10, -30,
   -20, 15, 25, 35, 35, 25, 15, -20,
   -20, 20, 35, 40, 40, 35, 20, -20,
   -20, 15, 30, 35, 35, 30, 15, -20,
   -20, 10, 25, 30, 30, 25, 10, -20,
   -30, -10, 10, 15, 15, 10, -10, -30,
   -50, -30, -20, -20, -20, -20, -30, -50]

def BISHOP_TABLE : List ℤ :=
  [-20, -15, -10, -10, -10, -10, -15, -20,
   -15, 5, 10, 15, 15, 10, 5, -15,
   -10, 15, 20, 25, 25, 20, 15, -10,
   -10, 10, 25, 30, 30, 25, 10, -10,
   -10, 15, 25, 30, 30, 25, 15, -10,
   -10, 20, 20, 25, 25, 20, 20, -10,
   -15, 15, 10, 10, 10, 10, 15, -15,
   -20, -15, -40, -10, -10, -40, -15, -20]

def ROOK_TABLE : List ℤ :=
  [10, 15, 15, 20, 20, 15, 15, 10,
   25, 30, 30, 35, 35, 30, 30, 25,
   5, 10, 15, 20, 20, 15, 10, 5,
   0, 5, 10, 15, 15, 10, 5, 0,
   0, 5, 10, 15, 15, 10, 5, 0,
   0, 5, 10, 15, 15, 10, 5, 0,
   0, 5, 10, 15, 15, 10, 5, 0,
   0, 0, 5, 10, 10, 5, 0, 0]

def QUEEN_TABLE : List ℤ :=
  [-20, -10, -10, 0, 0, -10, -10, -20,
   -10, 5, 10, 10, 10, 10, 5, -10,
   -10, 10, 15, 20, 20, 15, 10, -10,
   -5, 10, 15, 20, 20, 15, 10, -5,
   -5, 10, 15, 20, 20, 15, 10, -5,
   -10, 10, 15, 15, 15, 15, 10, -10,
   -10, 5, 5, 5, 5, 5, 5, -10,
   -20, -10, -10, -5, -5, -10, -10, -20]

def KING_MIDDLEGAME_TABLE : List ℤ :=
  [-40, -40, -50, -60, -60, -50, -40, -40,
   -40, -40, -50, -60, -60, -50, -40, -40,
   -40, -40, -50, -60, -60, -50, -40, -40,
   -40, -40, -50, -60, -60, -50, -40, -40,
   -30, -30, -40, -50, -50, -40, -30, -30,
   -20, -20, -30, -40, -40, -30, -20, -20,
   -10, -10, -20, -30, -30, -20, -10, -10,
   10, 20, 0, -20, -20, 0, 20, 10]

def KING_ENDGAME_TABLE : List ℤ :=
  [-20, -10, 0, 10, 10, 0, -10, -20,
   -10, 5, 15, 20, 20, 15, 5, -10,
   0, 15, 25, 30, 30, 25, 15, 0,
   10, 20, 30, 40, 40, 30, 20, 10,
   10, 20, 30, 40, 40, 30, 20, 10,
   0, 15, 25, 30, 30, 25, 15, 0,
   -10, 5, 15, 20, 20, 15, 5, -10,
   -20, -10, 0, 10, 10, 0, -10, -20]

def PT_LIST : List PieceType :=
  [.pawn, .knight, .bishop, .rook, .queen, .king]

/-- The per-move priority of _order_moves: checkmate flat 100000, else
check 5000 x aggression; MVV-LVA capture term x aggression; king hunt;
central squares; minor-piece development during the first 10 moves of
move_history. -/
def move_score (E : Engine B M) (af : ℚ) (hist : List M) (b : B) (m : M) :
    ℚ :=
  let s : ℚ := 0
  let b1 := E.push b m
  let s : ℚ :=
    if E.is_checkmate b1 then s + 100000
    else if E.is_check b1 then s + 5000 * af
    else s
  let s : ℚ :=
    if E.is_capture b m then
      match E.piece_at b (E.to_square m), E.piece_at b (E.from_square m) with
      | some captured, some moving =>
        s + ((PIECE_VALUES captured.2 : ℚ) * 10 -
          (PIECE_VALUES moving.2 : ℚ)) * af
      | _, _ => s
    else s
  let s : ℚ :=
    match E.king b (!E.turn b) with
    | some ek =>
      match E.piece_at b (E.from_square m) with
      | some _ =>
        let from_distance := squareDistance (E.from_square m) ek
        let to_distance := squareDistance (E.to_square m) ek
        if to_distance < from_distance then
          s + ((from_distance : ℚ) - (to_distance : ℚ)) * 50 * af
        else s
      | none => s
    | none => s
  let s : ℚ :=
    if E.to_square m ∈ ([28, 27, 36, 35] : List Square) then s + 100 else s
  let s : ℚ :=
    if hist.length < 10 then
      match E.piece_at b (E.from_square m) with
      | some moving =>
        if moving.2 = PieceType.knight ∨ moving.2 = PieceType.bishop then
          if E.turn b then
            if E.from_square m ∈ ([1, 6, 2, 5] : List Square) then s + 150
            else s
          else
            if E.from_square m ∈ ([57, 62, 58, 61] : List Square) then s + 150
            else s
        else s
      | none => s
    else s
  s

/-- _order_moves: score each move, then stable-sort descending. -/
def order_moves (E : Engine B M) (af : ℚ) (hist : List M) (b : B)
    (ms : List M) : List M :=
  (List.insertionSort (fun x y : M × ℚ => y.2 ≤ x.2)
    (ms.map (fun m => (m, move_score E af hist b m)))).map Prod.fst

/-- _count_material: total material on the board excluding kings. -/
def count_material (E : Engine B M) (b : B) : ℤ :=
  ([PieceType.pawn, .knight, .bishop, .rook, .queen] : List PieceType).foldl
    (fun total pt =>
      total + (pieceCount E b true pt : ℤ) * PIECE_VALUES pt +
        (pieceCount E b false pt : ℤ) * PIECE_VALUES pt) 0

/-- _evaluate_material. -/
def evaluate_material (E : Engine B M) (b : B) : ℚ :=
  PT_LIST.foldl (fun score pt =>
    score + ((pieceCount E b true pt : ℚ) - (pieceCount E b false pt : ℚ)) *
      (PIECE_VALUES pt : ℚ)) 0

/-- _evaluate_piece_squares. -/
def evaluate_piece_squares (E : Engine B M) (b : B) (endg : Bool) : ℚ :=
  let tbl : PieceType → List ℤ := fun pt =>
    match pt with
    | .pawn => PAWN_TABLE
    | .knight => KNIGHT_TABLE
    | .bishop => BISHOP_TABLE
    | .rook => ROOK_TABLE
    | .queen => QUEEN_TABLE
    | .king => if endg then KING_ENDGAME_TABLE else KING_MIDDLEGAME_TABLE
  PT_LIST.foldl (fun score pt =>
    let score : ℚ := (List.finRange 64).foldl (fun score sq =>
      if E.piece_at b sq == some (true, pt) then
        score + ((tbl pt).getD (squareMirror sq).val 0 : ℚ)
      else score) score
    (List.finRange 64).foldl (fun score sq =>
      if E.piece_at b sq == some (false, pt) then
        score - ((tbl pt).getD sq.val 0 : ℚ)
      else score) score) 0

/-- _evaluate_mobility (the null-move probe; the dead `is_valid` branch
of the source is overwritten by the try block, whose net effect is the
legal-move count after the null move). -/
def evaluate_mobility (E : Engine B M) (b : B) : ℚ :=
  let current_mobility := (E.legal_moves b).length
  let opponent_mobility := (E.legal_moves (E.pushNull b)).length
  let mobility_score : ℚ :=
    ((current_mobility : ℚ) - (opponent_mobility : ℚ)) * 5
  let mobility_score : ℚ :=
    if 30 < current_mobility then mobility_score + 20 else mobility_score
  if E.turn b then mobility_score else -mobility_score

/-- _count_king_attackers. -/
def count_king_attackers (E : Engine B M) (b : B) (defending_color : Bool) :
    Nat :=
  match E.king b defending_color with
  | none => 0
  | some king_square =>
    (E.attacks b king_square ++ [king_square]).foldl (fun acc sq =>
      acc + E.attackers b (!defending_color) sq) 0

/-- _pieces_near_king. -/
def pieces_near_king (E : Engine B M) (b : B) (piece_color : Bool)
    (enemy_king_square : Square) : Nat :=
  ([PieceType.knight, .bishop, .rook, .queen] : List PieceType).foldl
    (fun count pt =>
      (List.finRange 64).foldl (fun count sq =>
        if E.piece_at b sq == some (piece_color, pt) then
          let distance := squareDistance sq enemy_king_square
          if distance ≤ 3 then count + (4 - distance) else count
        else count) count) 0

/-- _evaluate_pawn_shield. -/
def evaluate_pawn_shield (E : Engine B M) (b : B) (color : Bool)
    (king_square : Square) : ℚ :=
  let king_file := squareFile king_square
  let king_rank := squareRank king_square
  let direction : ℤ := if color then 1 else -1
  ([-1, 0, 1] : List ℤ).foldl (fun score file_offset =>
    let check_file : ℤ := (king_file : ℤ) + file_offset
    if 0 ≤ check_file ∧ check_file ≤ 7 then
      let check_rank : ℤ := (king_rank : ℤ) + direction
      if 0 ≤ check_rank ∧ check_rank ≤ 7 then
        match E.piece_at b (mkSquare check_file.toNat check_rank.toNat) with
        | some pc =>
          if pc.2 = PieceType.pawn ∧ pc.1 = color then score + 10 else score
        | none => score
      else score
    else score) 0

/-- _evaluate_king_safety. -/
def evaluate_king_safety (E : Engine B M) (b : B) : ℚ :=
  match E.king b true, E.king b false with
  | some white_king, some black_king =>
    let s : ℚ := (count_king_attackers E b false : ℚ) * 30
    let s := s - (count_king_attackers E b true : ℚ) * 30
    let s := s + (pieces_near_king E b true black_king : ℚ) * 15
    let s := s - (pieces_near_king E b false white_king : ℚ) * 15
    let s := s + evaluate_pawn_shield E b true white_king * 0.5
    s - evaluate_pawn_shield E b false black_king * 0.5
  | _, _ => 0

/-- _evaluate_center_control. -/
def evaluate_center_control (E : Engine B M) (b : B) : ℚ :=
  let center_squares : List Square := [28, 27, 36, 35]
  let extended_center : List Square :=
    [18, 19, 20, 21, 26, 29, 34, 37, 42, 43, 44, 45]
  let s : ℚ := center_squares.foldl (fun s sq =>
    let s : ℚ :=
      s + ((E.attackers b true sq : ℚ) - (E.attackers b false sq : ℚ)) * 15
    match E.piece_at b sq with
    | some pc => if pc.1 then s + 20 else s - 20
    | none => s) 0
  extended_center.foldl (fun s sq =>
    s + ((E.attackers b true sq : ℚ) - (E.attackers b false sq : ℚ)) * 5) s

/-- _is_open_file. -/
def is_open_file (E : Engine B M) (b : B) (file : Nat) : Bool :=
  ¬ (List.range 8).any (fun r =>
    match E.piece_at b (mkSquare file r) with
    | some pc => pc.2 = PieceType.pawn
    | none => false)

/-- _evaluate_attack_potential. -/
def evaluate_attack_potential (E : Engine B M) (b : B) : ℚ :=
  let s : ℚ := if 2 ≤ pieceCount E b true .bishop then 50 else 0
  let s : ℚ := if 2 ≤ pieceCount E b false .bishop then s - 50 else s
  let s : ℚ := (List.finRange 64).foldl (fun s sq =>
    if E.piece_at b sq == some (true, PieceType.rook) then
      if is_open_file E b (squareFile sq) then s + 25 else s
    else s) s
  let s : ℚ := (List.finRange 64).foldl (fun s sq =>
    if E.piece_at b sq == some (false, PieceType.rook) then
      if is_open_file E b (squareFile sq) then s - 25 else s
    else s) s
  let white_rooks := (List.finRange 64).filter
    (fun sq => E.piece_at b sq == some (true, PieceType.rook))
  let s : ℚ :=
    match white_rooks with
    | [r1, r2] => if squareRank r1 = squareRank r2 then s + 15 else s
    | _ => s
  let black_rooks := (List.finRange 64).filter
    (fun sq => E.piece_at b sq == some (false, PieceType.rook))
  let s : ℚ :=
    match black_rooks with
    | [r1, r2] => if squareRank r1 = squareRank r2 then s - 15 else s
    | _ => s
  let s : ℚ :=
    if 0 < pieceCount E b true .queen ∧ 0 < pieceCount E b true .knight
    then s + 20 else s
  if 0 < pieceCount E b false .queen ∧ 0 < pieceCount E b false .knight
  then s - 20 else s

/-- _evaluate_development. -/
def evaluate_development (E : Engine B M) (b : B) : ℚ :=
  let s : ℚ := ([1, 6, 2, 5] : List Square).foldl (fun s sq =>
    match E.piece_at b sq with
    | some pc =>
      if pc.1 = true ∧
          (pc.2 = PieceType.knight ∨ pc.2 = PieceType.bishop) then s - 30
      else s
    | none => s) 0
  let s : ℚ := ([57, 62, 58, 61] : List Square).foldl (fun s sq =>
    match E.piece_at b sq with
    | some pc =>
      if pc.1 = false ∧
          (pc.2 = PieceType.knight ∨ pc.2 = PieceType.bishop) then s + 30
      else s
    | none => s) s
  let s : ℚ :=
    if ¬ E.has_kingside_castling_rights b true ∨
        ¬ E.has_queenside_castling_rights b true then
      match E.king b true with
      | some k => if k ∈ ([6, 2] : List Square) then s + 40 else s
      | none => s
    else s
  if ¬ E.has_kingside_castling_rights b false ∨
      ¬ E.has_queenside_castling_rights b false then
    match E.king b false with
    | some k => if k ∈ ([62, 58] : List Square) then s - 40 else s
    | none => s
  else s

/-- _evaluate_position: the float -inf checkmate sentinel, 0 draws, then
the weighted feature sum negated for Black to move. -/
def evaluate_position (E : Engine B M) (af : ℚ) (hist : List M) (b : B) :
    XQ :=
  if E.is_checkmate b then XQ.ninf
  else if E.is_stalemate b ∨ E.is_insufficient_material b then XQ.num 0
  else
    let total_material := count_material E b
    let endg := total_material < 2600
    let score : ℚ := evaluate_material E b
    let score := score + evaluate_piece_squares E b endg
    let score := score + evaluate_mobility E b * af
    let score := score + evaluate_king_safety E b * af
    let score := score + evaluate_center_control E b
    let score := score + evaluate_attack_potential E b * af
    let score :=
      if hist.length < 20 then score + evaluate_development E b else score
    XQ.num (if E.turn b then score else -score)

mutual

/-- _alpha_beta of AggressiveAttacker: explicit max/min with the
maximizing flag, checkmate mapped to the float infinities, stalemate and
insufficient material to 0, the evaluation at depth 0. -/
def alphaBeta (E : Engine B M) (af : ℚ) (hist : List M) (d : Nat) (b : B)
    (alpha beta : XQ) (maximizing : Bool) : XQ :=
  if E.is_checkmate b then (if maximizing then XQ.ninf else XQ.pinf)
  else if E.is_stalemate b ∨ E.is_insufficient_material b then XQ.num 0
  else
    match d with
    | 0 => evaluate_position E af hist b
    | d' + 1 =>
      let sorted_moves := order_moves E af hist b (E.legal_moves b)
      if maximizing then
        abMaxLoop E af hist d' b sorted_moves XQ.ninf alpha beta
      else
        abMinLoop E af hist d' b sorted_moves XQ.pinf alpha beta
termination_by (d, 0, 0)

/-- The maximizing loop of _alpha_beta. -/
def abMaxLoop (E : Engine B M) (af : ℚ) (hist : List M) (d : Nat) (b : B)
    (ms : List M) (max_eval alpha beta : XQ) : XQ :=
  match ms with
  | [] => max_eval
  | m :: rest =>
    let ev := alphaBeta E af hist d (E.push b m) alpha beta false
    let max_eval := max max_eval ev
    let alpha := max alpha ev
    if beta ≤ alpha then max_eval
    else abMaxLoop E af hist d b rest max_eval alpha beta
termination_by (d, 1, ms.length)

/-- The minimizing loop of _alpha_beta. -/
def abMinLoop (E : Engine B M) (af : ℚ) (hist : List M) (d : Nat) (b : B)
    (ms : List M) (min_eval alpha beta : XQ) : XQ :=
  match ms with
  | [] => min_eval
  | m :: rest =>
    let ev := alphaBeta E af hist d (E.push b m) alpha beta true
    let min_eval := min min_eval ev
    let beta := min beta ev
    if beta ≤ alpha then min_eval
    else abMinLoop E af hist d b rest min_eval alpha beta
termination_by (d, 1, ms.length)

end

/-- The root loop of get_best_move: push each ordered move, search at
fixed depth 3 with the full window and maximizing=False, negate, keep
strict improvements. -/
def rootLoop (E : Engine B M) (af : ℚ) (hist : List M) (b : B)
    (ms : List M) (bm : Option M) (best : XQ) : Option M :=
  match ms with
  | [] => bm
  | m :: rest =>
    let s := (alphaBeta E af hist 3 (E.push b m) XQ.ninf XQ.pinf false).neg
    if best < s then rootLoop E af hist b rest (some m) s
    else rootLoop E af hist b rest bm best

/-- get_best_move of AggressiveAttacker: selects a move and appends it to
move_history; returns the move and the updated history. -/
def get_best_move (E : Engine B M) (af : ℚ) (hist : List M) (b : B) :
    Option M × List M :=
  match E.legal_moves b with
  | [] => (none, hist)
  | m :: rest =>
    let sorted_moves := order_moves E af hist b (m :: rest)
    let best_move := rootLoop E af hist b sorted_moves none XQ.ninf
    match best_move with
    | some bmv => (some bmv, hist ++ [bmv])
    | none => (none, hist)

end AAT

/-!
## PositionalDefender (src/chess_players/positional_defender.py)

The minimax with the transposition table.  The table is keyed by
`board.fen()`, i.e. by position identity, so positions serve as their own
keys; the table is the player's persistent state and is threaded through
the search explicitly.  The evaluator enters abstractly through the rules
view (`evalPos`); `moves` is the ordered move list `_order_moves`
produces and `legalMoves` the raw legal-move list, with the contract that
ordering only permutes the legal moves.
-/

namespace PDF

/-- Abstract rules view for the PositionalDefender search. -/
structure PDRules (Pos M : Type) where
  legalMoves : Pos → List M
  moves : Pos → List M
  child : Pos → M → Pos
  evalPos : Pos → ℚ
  gameOver : Pos → Bool
  turn : Pos → Bool
  moves_sub : ∀ p m, m ∈ moves p → m ∈ legalMoves p

variable {Pos M : Type} [DecidableEq Pos]

/-- The transposition table: position identity to (depth searched,
score). -/
def Table (Pos : Type) : Type := List (Pos × (Nat × XQ))

/-- Dict lookup. -/
def tlookup : Table Pos → Pos → Option (Nat × XQ)
  | [], _ => none
  | (k, e) :: rest, p => if k = p then some e else tlookup rest p

/-- Dict assignment (the new binding shadows any older one). -/
def tstore (t : Table Pos) (p : Pos) (e : Nat × XQ) : Table Pos :=
  (p, e) :: t

theorem tlookup_tstore_self (t : Table Pos) (p : Pos) (e : Nat × XQ) :
    tlookup (tstore t p e) p = some e := by
  simp [tstore, tlookup]

theorem tlookup_tstore_ne (t : Table Pos) (p k : Pos) (e : Nat × XQ)
    (h : k ≠ p) : tlookup (tstore t p e) k = tlookup t k := by
  simp only [tstore, tlookup]
  rw [if_neg (fun hpk => h hpk.symm)]

mutual

/-- _minimax of PositionalDefender: serve a cached entry searched to at
least the requested depth, otherwise compute, with alpha-beta pruning and
explicit max/min branches, and store (depth, score) afterwards. -/
def pdMinimax (R : PDRules Pos M) (d : Nat) (p : Pos) (alpha beta : XQ)
    (maximizing : Bool) (t : Table Pos) : XQ × Table Pos :=
  match tlookup t p with
  | some (cached_depth, cached_score) =>
    if d ≤ cached_depth then (cached_score, t)
    else pdBody R d p alpha beta maximizing t
  | none => pdBody R d p alpha beta maximizing t
termination_by (d, 1, 0)

/-- The body of _minimax after the cache check. -/
def pdBody (R : PDRules Pos M) (d : Nat) (p : Pos) (alpha beta : XQ)
    (maximizing : Bool) (t : Table Pos) : XQ × Table Pos :=
  if d = 0 ∨ R.gameOver p then
    let score := XQ.num (R.evalPos p)
    (score, tstore t p (d, score))
  else
    if maximizing then
      let r := pdMaxLoop R (d - 1) p (R.moves p) XQ.ninf alpha beta t
      (r.1, tstore r.2 p (d, r.1))
    else
      let r := pdMinLoop R (d - 1) p (R.moves p) XQ.pinf alpha beta t
      (r.1, tstore r.2 p (d, r.1))
termination_by (d, 0, 0)

/-- The maximizing move loop. -/
def pdMaxLoop (R : PDRules Pos M) (d : Nat) (p : Pos) (ms : List M)
    (max_eval alpha beta : XQ) (t : Table Pos) : XQ × Table Pos :=
  match ms with
  | [] => (max_eval, t)
  | m :: rest =>
    let r := pdMinimax R d (R.child p m) alpha beta false t
    let max_eval := max max_eval r.1
    let alpha := max alpha r.1
    if beta ≤ alpha then (max_eval, r.2)
    else pdMaxLoop R d p rest max_eval alpha beta r.2
termination_by (d, 2, ms.length)

/-- The minimizing move loop. -/
def pdMinLoop (R : PDRules Pos M) (d : Nat) (p : Pos) (ms : List M)
    (min_eval alpha beta : XQ) (t : Table Pos) : XQ × Table Pos :=
  match ms with
  | [] => (min_eval, t)
  | m :: rest =>
    let r := pdMinimax R d (R.child p m) alpha beta true t
    let min_eval := min min_eval r.1
    let beta := min beta r.1
    if beta ≤ alpha then (min_eval, r.2)
    else pdMinLoop R d p rest min_eval alpha beta r.2
termination_by (d, 2, ms.length)

end

mutual

/-- Full fixed-depth minimax with the same evaluation: no cache, no
pruning — the reference of the pruning-correctness property. -/
def pdFull (R : PDRules Pos M) (d : Nat) (p : Pos) (maximizing : Bool) :
    XQ :=
  match d with
  | 0 => XQ.num (R.evalPos p)
  | d' + 1 =>
    if R.gameOver p then XQ.num (R.evalPos p)
    else
      if maximizing then pdFullMax R d' p (R.moves p) XQ.ninf
      else pdFullMin R d' p (R.moves p) XQ.pinf
termination_by (d, 0, 0)

/-- Maximizing fold of the full minimax. -/
def pdFullMax (R : PDRules Pos M) (d : Nat) (p : Pos) (ms : List M)
    (acc : XQ) : XQ :=
  match ms with
  | [] => acc
  | m :: rest => pdFullMax R d p rest (max acc (pdFull R d (R.child p m) false))
termination_by (d, 1, ms.length)

/-- Minimizing fold of the full minimax. -/
def pdFullMin (R : PDRules Pos M) (d : Nat) (p : Pos) (ms : List M)
    (acc : XQ) : XQ :=
  match ms with
  | [] => acc
  | m :: rest => pdFullMin R d p rest (min acc (pdFull R d (R.child p m) true))
termination_by (d, 1, ms.length)

end

/-- The root loop of get_best_move of PositionalDefender, threading the
persistent transposition table: each move is searched with fresh infinite
bounds and `not board.turn` of the child, and is kept when it strictly
improves (White to move) or strictly lowers (Black to move) the best
score. -/
def pdRootLoop (R : PDRules Pos M) (sd : Nat) (p : Pos) (ms : List M)
    (bm : M) (best : XQ) (t : Table Pos) : M × Table Pos :=
  match ms with
  | [] => (bm, t)
  | m :: rest =>
    let c := R.child p m
    let r := pdMinimax R (sd - 1) c XQ.ninf XQ.pinf (!R.turn c) t
    if R.turn p then
      if best < r.1 then pdRootLoop R sd p rest m r.1 r.2
      else pdRootLoop R sd p rest bm best r.2
    else
      if r.1 < best then pdRootLoop R sd p rest m r.1 r.2
      else pdRootLoop R sd p rest bm best r.2

/-- get_best_move of PositionalDefender: None when the game is over or no
legal move exists; otherwise the best move starts as legal_moves[0] and
the ordered moves are searched. -/
def pdGetBestMove (R : PDRules Pos M) (sd : Nat) (p : Pos) (t : Table Pos) :
    Option M × Table Pos :=
  if R.gameOver p then (none, t)
  else
    match R.legalMoves p with
    | [] => (none, t)
    | m0 :: _ =>
      let best : XQ := if R.turn p then XQ.ninf else XQ.pinf
      let r := pdRootLoop R sd p (R.moves p) m0 best t
      (some r.1, r.2)

end PDF

namespace PDF

variable {Pos M : Type} [DecidableEq Pos]

/-- Table evolution only deepens: every key present before is present
after, with a depth at least as large. -/
def TGrows (t t' : Table Pos) : Prop :=
  ∀ (k : Pos) (dv : Nat) (sv : XQ), tlookup t k = some (dv, sv) →
    ∃ (dv' : Nat) (sv' : XQ), tlookup t' k = some (dv', sv') ∧ dv ≤ dv'

/-- Entries added relative to `t` were stored with depth at most `d`. -/
def TNew (d : Nat) (t t' : Table Pos) : Prop :=
  ∀ (k : Pos) (dv : Nat) (sv : XQ), tlookup t' k = some (dv, sv) →
    tlookup t k = some (dv, sv) ∨ dv ≤ d

theorem TGrows.rfl (t : Table Pos) : TGrows t t :=
  fun k dv sv h => ⟨dv, sv, h, le_refl dv⟩

theorem TGrows.chain {t1 t2 t3 : Table Pos} (h1 : TGrows t1 t2)
    (h2 : TGrows t2 t3) : TGrows t1 t3 := by
  intro k dv sv h
  obtain ⟨dv', sv', h', hle⟩ := h1 k dv sv h
  obtain ⟨dv'', sv'', h'', hle'⟩ := h2 k dv' sv' h'
  exact ⟨dv'', sv'', h'', le_trans hle hle'⟩

theorem TNew.self (d : Nat) (t : Table Pos) : TNew d t t :=
  fun _ _ _ h => Or.inl h

theorem TNew.join {d : Nat} {t1 t2 t3 : Table Pos} (h1 : TNew d t1 t2)
    (h2 : TNew d t2 t3) : TNew d t1 t3 := by
  intro k dv sv h
  rcases h2 k dv sv h with h' | h'
  · exact h1 k dv sv h'
  · exact Or.inr h'

theorem TNew.mono {d d' : Nat} {t t' : Table Pos} (h : TNew d t t')
    (hd : d ≤ d') : TNew d' t t' := by
  intro k dv sv hk
  rcases h k dv sv hk with h' | h'
  · exact Or.inl h'
  · exact Or.inr (le_trans h' hd)

theorem tstore_grows {t : Table Pos} {p : Pos} {d : Nat} {s : XQ}
    (hpre : tlookup t p = none ∨
      ∃ (cd : Nat) (cs : XQ), tlookup t p = some (cd, cs) ∧ cd ≤ d) :
    TGrows t (tstore t p (d, s)) := by
  intro k dv sv h
  by_cases hk : k = p
  · subst hk
    rcases hpre with hnone | ⟨cd, cs, hsome, hle⟩
    · rw [h] at hnone; exact absurd hnone (by simp)
    · rw [h] at hsome
      obtain ⟨hd, _⟩ := Prod.mk.injEq .. ▸ (Option.some.injEq .. ▸ hsome)
      exact ⟨d, s, tlookup_tstore_self t k (d, s), by
        rw [show dv = cd from congrArg Prod.fst (Option.some.inj hsome)]
        exact hle⟩
  · exact ⟨dv, sv, by rw [tlookup_tstore_ne t p k (d, s) hk]; exact h,
      le_refl dv⟩

theorem tstore_new (t : Table Pos) (p : Pos) (d : Nat) (s : XQ) :
    TNew d t (tstore t p (d, s)) := by
  intro k dv sv h
  by_cases hk : k = p
  · subst hk
    rw [tlookup_tstore_self t k (d, s)] at h
    right
    rw [show dv = d from (congrArg Prod.fst (Option.some.inj h)).symm]
  · left
    rwa [tlookup_tstore_ne t p k (d, s) hk] at h

theorem pdMaxLoop_table (R : PDRules Pos M) (d : Nat)
    (hch : ∀ (p : Pos) (alpha beta : XQ) (mx : Bool) (t : Table Pos),
      TGrows t (pdMinimax R d p alpha beta mx t).2 ∧
      TNew d t (pdMinimax R d p alpha beta mx t).2) :
    ∀ (ms : List M) (p : Pos) (acc alpha beta : XQ) (t : Table Pos),
      TGrows t (pdMaxLoop R d p ms acc alpha beta t).2 ∧
      TNew d t (pdMaxLoop R d p ms acc alpha beta t).2 := by
  intro ms
  induction ms with
  | nil =>
    intro p acc alpha beta t
    rw [pdMaxLoop]
    exact ⟨TGrows.rfl t, TNew.self d t⟩
  | cons m rest ih =>
    intro p acc alpha beta t
    rw [pdMaxLoop]
    obtain ⟨hg, hn⟩ := hch (R.child p m) alpha beta false t
    by_cases hcut : beta ≤ max alpha (pdMinimax R d (R.child p m) alpha beta false t).1
    · simp only [hcut, if_true]
      exact ⟨hg, hn⟩
    · simp only [hcut, if_false]
      obtain ⟨hg', hn'⟩ := ih p _ _ beta (pdMinimax R d (R.child p m) alpha beta false t).2
      exact ⟨hg.chain hg', hn.join hn'⟩

theorem pdMinLoop_table (R : PDRules Pos M) (d : Nat)
    (hch : ∀ (p : Pos) (alpha beta : XQ) (mx : Bool) (t : Table Pos),
      TGrows t (pdMinimax R d p alpha beta mx t).2 ∧
      TNew d t (pdMinimax R d p alpha beta mx t).2) :
    ∀ (ms : List M) (p : Pos) (acc alpha beta : XQ) (t : Table Pos),
      TGrows t (pdMinLoop R d p ms acc alpha beta t).2 ∧
      TNew d t (pdMinLoop R d p ms acc alpha beta t).2 := by
  intro ms
  induction ms with
  | nil =>
    intro p acc alpha beta t
    rw [pdMinLoop]
    exact ⟨TGrows.rfl t, TNew.self d t⟩
  | cons m rest ih =>
    intro p acc alpha beta t
    rw [pdMinLoop]
    obtain ⟨hg, hn⟩ := hch (R.child p m) alpha beta true t
    by_cases hcut : min beta (pdMinimax R d (R.child p m) alpha beta true t).1 ≤ alpha
    · simp only [hcut, if_true]
      exact ⟨hg, hn⟩
    · simp only [hcut, if_false]
      obtain ⟨hg', hn'⟩ := ih p _ alpha _ (pdMinimax R d (R.child p m) alpha beta true t).2
      exact ⟨hg.chain hg', hn.join hn'⟩

/-- The cache invariant of the PositionalDefender search: the table only
ever deepens (an entry is replaced only by one of greater or equal
depth, and never disappears), and every entry written during a search of
depth `d` carries depth at most `d`. -/
theorem pdMinimax_table (R : PDRules Pos M) :
    ∀ (d : Nat) (p : Pos) (alpha beta : XQ) (mx : Bool) (t : Table Pos),
      TGrows t (pdMinimax R d p alpha beta mx t).2 ∧
      TNew d t (pdMinimax R d p alpha beta mx t).2 := by
  intro d
  induction d with
  | zero =>
    intro p alpha beta mx t
    rw [pdMinimax]
    cases hl : tlookup t p with
    | none =>
      simp only
      rw [pdBody, if_pos (Or.inl rfl)]
      exact ⟨tstore_grows (Or.inl hl),
        tstore_new t p 0 (XQ.num (R.evalPos p))⟩
    | some e =>
      obtain ⟨cd, cs⟩ := e
      simp only
      rw [if_pos (Nat.zero_le cd)]
      exact ⟨TGrows.rfl t, TNew.self 0 t⟩
  | succ d' ih =>
    intro p alpha beta mx t
    have hbody : ∀ t : Table Pos,
        (tlookup t p = none ∨
          ∃ (cd : Nat) (cs : XQ), tlookup t p = some (cd, cs) ∧ cd < d' + 1) →
        TGrows t (pdBody R (d' + 1) p alpha beta mx t).2 ∧
        TNew (d' + 1) t (pdBody R (d' + 1) p alpha beta mx t).2 := by
      intro t hguard
      rw [pdBody]
      by_cases hterm : d' + 1 = 0 ∨ R.gameOver p
      · rw [if_pos hterm]
        refine ⟨tstore_grows ?_, tstore_new t p (d' + 1) (XQ.num (R.evalPos p))⟩
        rcases hguard with h | ⟨cd, cs, h, hlt⟩
        · exact Or.inl h
        · exact Or.inr ⟨cd, cs, h, le_of_lt hlt⟩
      · rw [if_neg hterm]
        have hstep : ∀ r : XQ × Table Pos,
            TGrows t r.2 → TNew d' t r.2 →
            TGrows t (tstore r.2 p (d' + 1, r.1)) ∧
            TNew (d' + 1) t (tstore r.2 p (d' + 1, r.1)) := by
          intro r hg hn
          have hpre : tlookup r.2 p = none ∨
              ∃ (cd : Nat) (cs : XQ),
                tlookup r.2 p = some (cd, cs) ∧ cd ≤ d' + 1 := by
            cases hr2 : tlookup r.2 p with
            | none => exact Or.inl rfl
            | some e2 =>
              obtain ⟨dv, sv⟩ := e2
              right
              refine ⟨dv, sv, rfl, ?_⟩
              rcases hn p dv sv hr2 with hin | hle
              · rcases hguard with hnone | ⟨cd, cs, hsome, hlt⟩
                · rw [hin] at hnone; exact absurd hnone (by simp)
                · rw [hin] at hsome
                  rw [show dv = cd from
                    congrArg Prod.fst (Option.some.inj hsome)]
                  exact le_of_lt hlt
              · exact le_trans hle (Nat.le_succ d')
          exact ⟨hg.chain (tstore_grows hpre),
            (hn.mono (Nat.le_succ d')).join (tstore_new r.2 p (d' + 1) r.1)⟩
        cases mx with
        | true =>
          simp only [if_true]
          obtain ⟨hg, hn⟩ :=
            pdMaxLoop_table R d' ih (R.moves p) p XQ.ninf alpha beta t
          have hd1 : d' + 1 - 1 = d' := rfl
          rw [hd1]
          exact hstep _ hg hn
        | false =>
          simp only [Bool.false_eq_true, if_false]
          obtain ⟨hg, hn⟩ :=
            pdMinLoop_table R d' ih (R.moves p) p XQ.pinf alpha beta t
          have hd1 : d' + 1 - 1 = d' := rfl
          rw [hd1]
          exact hstep _ hg hn
    rw [pdMinimax]
    cases hl : tlookup t p with
    | none => exact hbody t (Or.inl hl)
    | some e =>
      obtain ⟨cd, cs⟩ := e
      simp only
      by_cases hd : d' + 1 ≤ cd
      · rw [if_pos hd]
        exact ⟨TGrows.rfl t, TNew.self (d' + 1) t⟩
      · rw [if_neg hd]
        exact hbody t (Or.inr ⟨cd, cs, hl, lt_of_not_le hd⟩)

/-- The serve rule, literally: a cached entry searched at least as deep
as requested is returned as is, with the table untouched. -/
theorem pdMinimax_serves (R : PDRules Pos M) (d : Nat) (p : Pos)
    (alpha beta : XQ) (mx : Bool) (t : Table Pos) (cd : Nat) (cs : XQ)
    (hl : tlookup t p = some (cd, cs)) (hd : d ≤ cd) :
    pdMinimax R d p alpha beta mx t = (cs, t) := by
  rw [pdMinimax, hl]
  simp only
  rw [if_pos hd]

end PDF

/-!
## A concrete board family for counterexample instances

A board state is the stack of moves pushed so far (None for a null move)
plus the side to move; push/pop/turn assignment have the real state
semantics, so the Engine contracts hold by construction, and all query
functions are supplied per instance.
-/

/-- A concrete board: move stack plus side to move. -/
structure BoardState (M : Type) where
  stack : List (Option M)
  side : Bool
deriving DecidableEq, Repr

/-- The query functions an instance supplies for `BoardState` boards. -/
structure EngineReads (M : Type) where
  is_checkmate : BoardState M → Bool := fun _ => false
  is_stalemate : BoardState M → Bool := fun _ => false
  is_insufficient_material : BoardState M → Bool := fun _ => false
  is_check : BoardState M → Bool := fun _ => false
  is_game_over : BoardState M → Bool := fun _ => false
  can_claim_draw : BoardState M → Bool := fun _ => false
  piece_at : BoardState M → Square → Option (Bool × PieceType) :=
    fun _ _ => none
  attackers : BoardState M → Bool → Square → Nat := fun _ _ _ => 0
  attacks : BoardState M → Square → List Square := fun _ _ => []
  king : BoardState M → Bool → Option Square := fun _ _ => none
  has_kingside_castling_rights : BoardState M → Bool → Bool :=
    fun _ _ => false
  has_queenside_castling_rights : BoardState M → Bool → Bool :=
    fun _ _ => false
  legal_moves : BoardState M → List M := fun _ => []
  is_capture : BoardState M → M → Bool := fun _ _ => false
  to_square : M → Square := fun _ => 0
  from_square : M → Square := fun _ => 0
  promotion : M → Option PieceType := fun _ => none

/-- Build an Engine over concrete `BoardState` boards: the mutators have
the real stack semantics, so the collaborator contracts hold by
construction. -/
def mkEngine {M : Type} (R : EngineReads M) : Engine (BoardState M) M where
  turn := fun b => b.side
  is_checkmate := R.is_checkmate
  is_stalemate := R.is_stalemate
  is_insufficient_material := R.is_insufficient_material
  is_check := R.is_check
  is_game_over := R.is_game_over
  can_claim_draw := R.can_claim_draw
  piece_at := R.piece_at
  attackers := R.attackers
  attacks := R.attacks
  king := R.king
  has_kingside_castling_rights := R.has_kingside_castling_rights
  has_queenside_castling_rights := R.has_queenside_castling_rights
  legal_moves := R.legal_moves
  is_capture := R.is_capture
  to_square := R.to_square
  from_square := R.from_square
  promotion := R.promotion
  push := fun b m => ⟨some m :: b.stack, !b.side⟩
  pushNull := fun b => ⟨none :: b.stack, !b.side⟩
  pop := fun b => ⟨b.stack.tail, !b.side⟩
  setTurn := fun b c => ⟨b.stack, c⟩
  pop_push := by intro b m; cases b; simp
  pop_pushNull := by intro b; cases b; simp
  set_set := by intro b c c'; cases b; simp
  set_turn := by intro b; cases b; simp

/-!
## Claim theorems
-/

/-- C3: after selectMove or evaluate returns, the position is observably
identical to before the call: the board state returned by the threaded
translations of evaluate_position (including the turn flips of the
mobility probe), _order_moves (including the speculative check-detection
pushes), _minimax (including the pruning break path) and get_best_move
is exactly the input board. -/
theorem C3_position_restored {B M : Type} (E : Engine B M) (b : B)
    (ms : List M) (d sd : Nat) (alpha beta : XQ) :
    (ACP.evaluate_positionT E b).2 = b ∧
    (ACP.evaluate_piece_activityT E b).2 = b ∧
    (ACP.order_movesT E b ms).2 = b ∧
    (ACP.minimaxT E d b alpha beta).2 = b ∧
    (ACP.get_best_moveT E sd b).2 = b :=
  ⟨ACP.evaluate_positionT_restores E b, ACP.activity_restores E b,
    ACP.order_movesT_restores E b ms, ACP.minimaxT_restores E d b alpha beta,
    ACP.get_best_moveT_restores E sd b⟩

/-- C8: with zero legal moves, move selection returns the empty result
(None), not an error: for AggressiveChessPlayer.get_best_move and for
PositionalDefender.get_best_move (both on the game-over path and on the
empty-legal-moves path). -/
theorem C8_no_moves_returns_none {B M Pos Mv : Type} [DecidableEq Pos]
    (E : Engine B M) (b : B) (sd : Nat)
    (R : PDF.PDRules Pos Mv) (p : Pos) (sd' : Nat) (t : PDF.Table Pos) :
    (E.legal_moves b = [] → (ACP.get_best_moveT E sd b).1 = none) ∧
    (R.gameOver p = true → (PDF.pdGetBestMove R sd' p t).1 = none) ∧
    (R.gameOver p = false → R.legalMoves p = [] →
      (PDF.pdGetBestMove R sd' p t).1 = none) := by
  refine ⟨?_, ?_, ?_⟩
  · intro h
    rw [ACP.get_best_moveT, h]
  · intro h
    rw [PDF.pdGetBestMove, if_pos h]
  · intro h hleg
    rw [PDF.pdGetBestMove, if_neg (by rw [h]; simp), hleg]

theorem pdRootLoop_mem {Pos Mv : Type} [DecidableEq Pos]
    (R : PDF.PDRules Pos Mv) (sd : Nat) (p : Pos) :
    ∀ (ms : List Mv) (bm : Mv) (best : XQ) (t : PDF.Table Pos),
      (PDF.pdRootLoop R sd p ms bm best t).1 = bm ∨
      (PDF.pdRootLoop R sd p ms bm best t).1 ∈ ms := by
  intro ms
  induction ms with
  | nil => intro bm best t; left; rw [PDF.pdRootLoop]
  | cons m rest ih =>
    intro bm best t
    rw [PDF.pdRootLoop]
    set r := PDF.pdMinimax R (sd - 1) (R.child p m) XQ.ninf XQ.pinf
      (!R.turn (R.child p m)) t with hr
    by_cases ht : R.turn p
    · rw [if_pos ht]
      by_cases hlt : best < r.1
      · simp only [hlt, if_true]
        rcases ih m r.1 r.2 with h | h
        · right; rw [h]; exact List.mem_cons_self m rest
        · right; exact List.mem_cons_of_mem m h
      · simp only [hlt, if_false]
        rcases ih bm best r.2 with h | h
        · left; exact h
        · right; exact List.mem_cons_of_mem m h
    · rw [if_neg ht]
      by_cases hlt : r.1 < best
      · simp only [hlt, if_true]
        rcases ih m r.1 r.2 with h | h
        · right; rw [h]; exact List.mem_cons_self m rest
        · right; exact List.mem_cons_of_mem m h
      · simp only [hlt, if_false]
        rcases ih bm best r.2 with h | h
        · left; exact h
        · right; exact List.mem_cons_of_mem m h

/-- C10: with at least one legal move, move selection always returns a
member of the legal-move list, never None and never a move from outside
the list — for AggressiveChessPlayer (the first searched child always
yields an actual number, strictly above the float negative infinity the
best score starts at) and for PositionalDefender (the best move starts
as legal_moves[0] and is only ever replaced by a searched move). -/
theorem C10_selects_legal_move {B M Pos Mv : Type} [DecidableEq Pos]
    (E : Engine B M) (b : B) (sd : Nat)
    (R : PDF.PDRules Pos Mv) (p : Pos) (sd' : Nat) (t : PDF.Table Pos) :
    (E.legal_moves b ≠ [] →
      ∃ m ∈ E.legal_moves b, (ACP.get_best_moveT E sd b).1 = some m) ∧
    (R.gameOver p = false → R.legalMoves p ≠ [] →
      ∃ m ∈ R.legalMoves p, (PDF.pdGetBestMove R sd' p t).1 = some m) := by
  constructor
  · intro h
    rw [ACP.get_best_moveT_val]
    have hne : (ACP.searchRules E).moves b ≠ [] := by
      intro hc
      have := congrArg List.length hc
      rw [ACP.searchRules_moves, ACP.order_moves_length] at this
      exact h (List.length_eq_zero.mp this)
    obtain ⟨m, hm, hres⟩ := getBestMove_mem (ACP.searchRules E) sd b hne
    rw [ACP.searchRules_moves] at hm
    exact ⟨m, ACP.order_moves_mem E b (E.legal_moves b) m hm, hres⟩
  · intro hgo hne
    rw [PDF.pdGetBestMove, if_neg (by rw [hgo]; simp)]
    cases hleg : R.legalMoves p with
    | nil => exact absurd hleg hne
    | cons m0 rest =>
      simp only
      rcases pdRootLoop_mem R sd' p (R.moves p) m0
          (if R.turn p then XQ.ninf else XQ.pinf) t with h | h
      · exact ⟨m0, List.mem_cons_self m0 rest, by rw [h]⟩
      · have hmem := R.moves_sub p _ h
        rw [hleg] at hmem
        exact ⟨_, hmem, rfl⟩

/-- An engine whose boards never have legal moves. -/
def emptyEngine : Engine (BoardState (Fin 1)) (Fin 1) :=
  mkEngine ({} : EngineReads (Fin 1))

/-- PositionalDefender rules with a game-over position 0 and a
no-legal-moves position 1. -/
def pdEmptyRules : PDF.PDRules (Fin 2) (Fin 1) where
  legalMoves := fun _ => []
  moves := fun _ => []
  child := fun p _ => p
  evalPos := fun _ => 0
  gameOver := fun p => p == 0
  turn := fun _ => true
  moves_sub := by intro p m h; exact h

theorem C8_no_moves_returns_none_witness :
    (emptyEngine.legal_moves ⟨[], true⟩ = [] ∧
      (ACP.get_best_moveT emptyEngine 3 ⟨[], true⟩).1 = none) ∧
    (pdEmptyRules.gameOver 0 = true ∧
      (PDF.pdGetBestMove pdEmptyRules 3 0 []).1 = none) ∧
    (pdEmptyRules.gameOver 1 = false ∧ pdEmptyRules.legalMoves 1 = [] ∧
      (PDF.pdGetBestMove pdEmptyRules 3 1 []).1 = none) :=
  ⟨⟨rfl, (C8_no_moves_returns_none emptyEngine ⟨[], true⟩ 3 pdEmptyRules 0 3
      []).1 rfl⟩,
   ⟨rfl, (C8_no_moves_returns_none emptyEngine ⟨[], true⟩ 3 pdEmptyRules 0 3
      []).2.1 rfl⟩,
   ⟨rfl, rfl, (C8_no_moves_returns_none emptyEngine ⟨[], true⟩ 3 pdEmptyRules
      1 3 []).2.2 rfl rfl⟩⟩

/-- An engine with exactly one legal move at the empty-stack board. -/
def oneMoveEngine : Engine (BoardState (Fin 1)) (Fin 1) :=
  mkEngine { legal_moves := fun b => if b.stack.isEmpty then [0] else [] }

/-- PositionalDefender rules with one legal move at the only position. -/
def pdOneRules : PDF.PDRules (Fin 1) (Fin 1) where
  legalMoves := fun _ => [0]
  moves := fun _ => [0]
  child := fun p _ => p
  evalPos := fun _ => 0
  gameOver := fun _ => false
  turn := fun _ => true
  moves_sub := by intro p m h; exact h

theorem C10_selects_legal_move_witness :
    (oneMoveEngine.legal_moves ⟨[], true⟩ ≠ [] ∧
      ∃ m ∈ oneMoveEngine.legal_moves ⟨[], true⟩,
        (ACP.get_best_moveT oneMoveEngine 3 ⟨[], true⟩).1 = some m) ∧
    (pdOneRules.gameOver 0 = false ∧ pdOneRules.legalMoves 0 ≠ [] ∧
      ∃ m ∈ pdOneRules.legalMoves 0,
        (PDF.pdGetBestMove pdOneRules 3 0 []).1 = some m) :=
  ⟨⟨by decide, (C10_selects_legal_move oneMoveEngine ⟨[], true⟩ 3 pdOneRules
      0 3 []).1 (by decide)⟩,
   ⟨rfl, by decide, (C10_selects_legal_move oneMoveEngine ⟨[], true⟩ 3
      pdOneRules 0 3 []).2 rfl (by decide)⟩⟩

/-- C1 (amended): for AggressiveChessPlayer's negamax alpha-beta (no
transposition cache), pruning never changes the result: at every board
and depth the threaded search with the initial infinite window returns
exactly the full-minimax score, and get_best_move returns exactly the
move full minimax would pick. -/
theorem C1_pruning_preserves_result {B M : Type} (E : Engine B M)
    (d sd : Nat) (b : B) :
    (ACP.minimaxT E d b XQ.ninf XQ.pinf).1 =
      minimaxFull (ACP.searchRules E) d b ∧
    (ACP.get_best_moveT E sd b).1 = getBestMoveFull (ACP.searchRules E) sd b := by
  constructor
  · rw [ACP.minimaxT_val]
    exact minimaxAB_eq_full (ACP.searchRules E) d b
  · rw [ACP.get_best_moveT_val]
    exact getBestMove_eq_full (ACP.searchRules E) sd b

/-- A four-position game with a transposition: position 1 is reached both
directly from the root (searched to depth 1) and through position 2
(requested at depth 0). -/
def c1Rules : PDF.PDRules (Fin 4) (Fin 4) where
  legalMoves := fun p =>
    if p = 0 then [1, 2] else if p = 1 then [3] else if p = 2 then [1] else []
  moves := fun p =>
    if p = 0 then [1, 2] else if p = 1 then [3] else if p = 2 then [1] else []
  child := fun _ m => m
  evalPos := fun p => if p = 3 then 5 else if p = 1 then 100 else 0
  gameOver := fun _ => false
  turn := fun _ => true
  moves_sub := by intro p m h; exact h

/-- C1 counterexample: on `c1Rules` at depth 2 the PositionalDefender
search (alpha-beta with the transposition table, fresh empty table)
returns 5, while the full minimax of the same depth returns 100: the
cache entry for position 1, stored at depth 1, is served when position 1
is reached again at depth 0 below position 2, replacing the static
evaluation 100 by the depth-1 score 5. -/
theorem C1_counterexample :
    (PDF.pdMinimax c1Rules 2 0 XQ.ninf XQ.pinf true []).1 = XQ.num 5 ∧
    PDF.pdFull c1Rules 2 0 true = XQ.num 100 ∧
    (PDF.pdMinimax c1Rules 2 0 XQ.ninf XQ.pinf true []).1 ≠
      PDF.pdFull c1Rules 2 0 true := by
  have h1 : (PDF.pdMinimax c1Rules 2 0 XQ.ninf XQ.pinf true []).1 = XQ.num 5 := by
    simp +decide [PDF.pdMinimax, PDF.pdBody, PDF.pdMaxLoop, PDF.pdMinLoop,
      PDF.tlookup, PDF.tstore, c1Rules, max_def, min_def]
  have h2 : PDF.pdFull c1Rules 2 0 true = XQ.num 100 := by
    simp +decide [PDF.pdFull, PDF.pdFullMax, PDF.pdFullMin, c1Rules, max_def,
      min_def]
  refine ⟨h1, h2, ?_⟩
  rw [h1, h2]
  simp

/-- C7: the transposition cache serves a stored entry only when its
depth is at least the requested depth (the serve rule is literally the
guard, and returns the table untouched), and across any search a stored
entry is only ever replaced by one of greater or equal depth — a deeper
score is never overwritten by a shallower one, and entries never
disappear. -/
theorem C7_transposition_cache_policy {Pos M : Type} [DecidableEq Pos]
    (R : PDF.PDRules Pos M) (d : Nat) (p : Pos) (alpha beta : XQ)
    (mx : Bool) (t : PDF.Table Pos) :
    (∀ (cd : Nat) (cs : XQ), PDF.tlookup t p = some (cd, cs) → d ≤ cd →
      PDF.pdMinimax R d p alpha beta mx t = (cs, t)) ∧
    (∀ (k : Pos) (dv : Nat) (sv : XQ), PDF.tlookup t k = some (dv, sv) →
      ∃ (dv' : Nat) (sv' : XQ),
        PDF.tlookup (PDF.pdMinimax R d p alpha beta mx t).2 k =
          some (dv', sv') ∧ dv ≤ dv') :=
  ⟨fun cd cs hl hd => PDF.pdMinimax_serves R d p alpha beta mx t cd cs hl hd,
    (PDF.pdMinimax_table R d p alpha beta mx t).1⟩

theorem C7_transposition_cache_policy_witness :
    (PDF.tlookup [((1 : Fin 4), (1, XQ.num 5))] 1 = some (1, XQ.num 5) ∧
      PDF.pdMinimax c1Rules 1 1 XQ.ninf XQ.pinf true
        [((1 : Fin 4), (1, XQ.num 5))] = (XQ.num 5, [((1 : Fin 4), (1, XQ.num 5))])) ∧
    (∃ (dv' : Nat) (sv' : XQ),
      PDF.tlookup (PDF.pdMinimax c1Rules 1 1 XQ.ninf XQ.pinf true
        [((1 : Fin 4), (1, XQ.num 5))]).2 1 = some (dv', sv') ∧ 1 ≤ dv') :=
  ⟨⟨by decide,
    (C7_transposition_cache_policy c1Rules 1 1 XQ.ninf XQ.pinf true
      [((1 : Fin 4), (1, XQ.num 5))]).1 1 (XQ.num 5) (by decide) (by decide)⟩,
   (C7_transposition_cache_policy c1Rules 1 1 XQ.ninf XQ.pinf true
      [((1 : Fin 4), (1, XQ.num 5))]).2 1 1 (XQ.num 5) (by decide)⟩

/-- C2 (amended): in the aggressive evaluator, on any non-terminal
position the feature sum is computed once from the White-minus-Black
(absolute) perspective and negated exactly once, at the outermost level,
when the side to move is Black — so the returned value is positive-good
for the side about to move.  (The defensive evaluator performs no such
negation; see the counterexample.) -/
theorem C2_perspective_flip {B M : Type} (E : Engine B M) (b : B)
    (h1 : E.is_checkmate b = false) (h2 : E.is_stalemate b = false)
    (h3 : E.is_insufficient_material b = false) :
    ACP.evaluate_position E b =
      if E.turn b then ACP.absoluteScore E b
      else -(ACP.absoluteScore E b) := by
  rw [ACP.evaluate_position, ACP.evaluate_positionT, h1, h2, h3]
  simp only [Bool.false_eq_true, if_false, or_self, ACP.activity_restores,
    ACP.absoluteScore]

theorem C2_perspective_flip_witness :
    (mkEngine (M := Unit) {}).is_checkmate ⟨[], true⟩ = false ∧
    (mkEngine (M := Unit) {}).is_stalemate ⟨[], true⟩ = false ∧
    (mkEngine (M := Unit) {}).is_insufficient_material ⟨[], true⟩ = false ∧
    ACP.evaluate_position (mkEngine (M := Unit) {}) ⟨[], true⟩ =
      (if (mkEngine (M := Unit) {}).turn ⟨[], true⟩ then
        ACP.absoluteScore (mkEngine (M := Unit) {}) ⟨[], true⟩
      else -(ACP.absoluteScore (mkEngine (M := Unit) {}) ⟨[], true⟩)) :=
  ⟨rfl, rfl, rfl,
    C2_perspective_flip (mkEngine (M := Unit) {}) ⟨[], true⟩ rfl rfl rfl⟩

/-- King-and-rook versus king reads for the C2 counterexample: White king
on e1, White rook on h1, Black king on e8, Black to move, game not over. -/
def krkReads : EngineReads Unit where
  piece_at := fun _ sq =>
    if sq.val = 4 then some (true, PieceType.king)
    else if sq.val = 7 then some (true, PieceType.rook)
    else if sq.val = 60 then some (false, PieceType.king)
    else none
  king := fun _ c => if c then some 4 else some 60

theorem C2_counterexample :
    ((mkEngine krkReads).is_checkmate ⟨[], false⟩ = false ∧
      (mkEngine krkReads).is_stalemate ⟨[], false⟩ = false ∧
      (mkEngine krkReads).is_insufficient_material ⟨[], false⟩ = false ∧
      (mkEngine krkReads).can_claim_draw ⟨[], false⟩ = false ∧
      (mkEngine krkReads).turn ⟨[], false⟩ = false) ∧
    DCP.evaluate_position (mkEngine krkReads) ⟨[], false⟩ ≠
      DCP.evaluate_position_stm (mkEngine krkReads) ⟨[], false⟩ := by
  refine ⟨⟨rfl, rfl, rfl, rfl, rfl⟩, ?_⟩
  decide

/-- C5 (amended): the terminal shortcuts each evaluator actually takes.
Both evaluators return the dominant forced-loss sentinel for the side to
move on checkmate (−99999 aggressive, −100000 defensive) and exactly 0 on
stalemate or insufficient material; only the defensive evaluator also
returns 0 on a claimable draw — the aggressive evaluator never consults
can_claim_draw (see the counterexample). -/
theorem C5_terminal_shortcuts {B M : Type} (E : Engine B M) (b : B) :
    (E.is_checkmate b = true →
      ACP.evaluate_position E b = (if E.turn b then -99999 else 99999)) ∧
    (E.is_checkmate b = false →
      E.is_stalemate b = true ∨ E.is_insufficient_material b = true →
      ACP.evaluate_position E b = 0) ∧
    (E.is_checkmate b = true →
      DCP.evaluate_position E b = (if E.turn b then -100000 else 100000)) ∧
    (E.is_checkmate b = false →
      E.is_stalemate b = true ∨ E.is_insufficient_material b = true →
      DCP.evaluate_position E b = 0) ∧
    (E.is_checkmate b = false → E.is_stalemate b = false →
      E.is_insufficient_material b = false → E.can_claim_draw b = true →
      DCP.evaluate_position E b = 0) := by
  refine ⟨fun h1 => ?_, fun h1 h2 => ?_, fun h1 => ?_, fun h1 h2 => ?_,
    fun h1 h2 h3 h4 => ?_⟩
  · rw [ACP.evaluate_position, ACP.evaluate_positionT, h1]
    simp only [if_true]
  · rw [ACP.evaluate_position, ACP.evaluate_positionT, h1]
    simp only [Bool.false_eq_true, if_false]
    rw [if_pos h2]
  · rw [DCP.evaluate_position, h1]
    simp only [if_true]
  · rw [DCP.evaluate_position, h1]
    simp only [Bool.false_eq_true, if_false]
    rw [if_pos h2]
  · rw [DCP.evaluate_position, h1, h2, h3, h4]
    simp only [Bool.false_eq_true, if_false, or_self, if_true]

/-- Reads for a checkmated position. -/
def cmReads : EngineReads Unit where
  is_checkmate := fun _ => true

/-- Reads for a stalemated position. -/
def stReads : EngineReads Unit where
  is_stalemate := fun _ => true

/-- Reads for a position with a claimable draw (otherwise the
king-and-rook-versus-king material of `krkReads`). -/
def cdReads : EngineReads Unit :=
  { krkReads with can_claim_draw := fun _ => true }

theorem C5_terminal_shortcuts_witness :
    ((mkEngine cmReads).is_checkmate ⟨[], true⟩ = true ∧
      ACP.evaluate_position (mkEngine cmReads) ⟨[], true⟩ =
        (if (mkEngine cmReads).turn ⟨[], true⟩ then -99999 else 99999) ∧
      DCP.evaluate_position (mkEngine cmReads) ⟨[], true⟩ =
        (if (mkEngine cmReads).turn ⟨[], true⟩ then -100000 else 100000)) ∧
    ((mkEngine stReads).is_checkmate ⟨[], true⟩ = false ∧
      (mkEngine stReads).is_stalemate ⟨[], true⟩ = true ∧
      ACP.evaluate_position (mkEngine stReads) ⟨[], true⟩ = 0 ∧
      DCP.evaluate_position (mkEngine stReads) ⟨[], true⟩ = 0) ∧
    ((mkEngine cdReads).can_claim_draw ⟨[], true⟩ = true ∧
      DCP.evaluate_position (mkEngine cdReads) ⟨[], true⟩ = 0) :=
  ⟨⟨rfl,
    (C5_terminal_shortcuts (mkEngine cmReads) ⟨[], true⟩).1 rfl,
    (C5_terminal_shortcuts (mkEngine cmReads) ⟨[], true⟩).2.2.1 rfl⟩,
   ⟨rfl, rfl,
    (C5_terminal_shortcuts (mkEngine stReads) ⟨[], true⟩).2.1 rfl (Or.inl rfl),
    (C5_terminal_shortcuts (mkEngine stReads) ⟨[], true⟩).2.2.2.1 rfl
      (Or.inl rfl)⟩,
   ⟨rfl,
    (C5_terminal_shortcuts (mkEngine cdReads) ⟨[], true⟩).2.2.2.2 rfl rfl rfl
      rfl⟩⟩

/-- The square list as an explicit literal, for concrete evaluation. -/
def sq64 : List Square :=
  [0, 1, 2, 3, 4, 5, 6, 7, 8, 9, 10, 11, 12, 13, 14, 15,
   16, 17, 18, 19, 20, 21, 22, 23, 24, 25, 26, 27, 28, 29, 30, 31,
   32, 33, 34, 35, 36, 37, 38, 39, 40, 41, 42, 43, 44, 45, 46, 47,
   48, 49, 50, 51, 52, 53, 54, 55, 56, 57, 58, 59, 60, 61, 62, 63]

theorem finRange_eq_sq64 : List.finRange 64 = sq64 := by decide

set_option maxRecDepth 100000 in
set_option maxHeartbeats 4000000 in
theorem C5_counterexample :
    ((mkEngine cdReads).is_checkmate ⟨[], false⟩ = false ∧
      (mkEngine cdReads).is_stalemate ⟨[], false⟩ = false ∧
      (mkEngine cdReads).is_insufficient_material ⟨[], false⟩ = false ∧
      (mkEngine cdReads).can_claim_draw ⟨[], false⟩ = true) ∧
    ACP.evaluate_position (mkEngine cdReads) ⟨[], false⟩ ≠ 0 := by
  refine ⟨⟨rfl, rfl, rfl, rfl⟩, ?_⟩
  have hm : ACP.evaluate_material (mkEngine cdReads) ⟨[], false⟩ = 500 := by
    have cwp : pieceCount (mkEngine cdReads) ⟨[], false⟩ true .pawn = 0 := by
      decide
    have cbp : pieceCount (mkEngine cdReads) ⟨[], false⟩ false .pawn = 0 := by
      decide
    have cwn : pieceCount (mkEngine cdReads) ⟨[], false⟩ true .knight = 0 := by
      decide
    have cbn : pieceCount (mkEngine cdReads) ⟨[], false⟩ false .knight = 0 := by
      decide
    have cwb : pieceCount (mkEngine cdReads) ⟨[], false⟩ true .bishop = 0 := by
      decide
    have cbb : pieceCount (mkEngine cdReads) ⟨[], false⟩ false .bishop = 0 := by
      decide
    have cwr : pieceCount (mkEngine cdReads) ⟨[], false⟩ true .rook = 1 := by
      decide
    have cbr : pieceCount (mkEngine cdReads) ⟨[], false⟩ false .rook = 0 := by
      decide
    have cwq : pieceCount (mkEngine cdReads) ⟨[], false⟩ true .queen = 0 := by
      decide
    have cbq : pieceCount (mkEngine cdReads) ⟨[], false⟩ false .queen = 0 := by
      decide
    have cwk : pieceCount (mkEngine cdReads) ⟨[], false⟩ true .king = 1 := by
      decide
    have cbk : pieceCount (mkEngine cdReads) ⟨[], false⟩ false .king = 1 := by
      decide
    rw [ACP.evaluate_material, ACP.PT_LIST]
    simp only [List.foldl, cwp, cbp, cwn, cbn, cwb, cbb, cwr, cbr, cwq, cbq,
      cwk, cbk, ACP.PIECE_VALUES]
    norm_num
  have ha : ACP.evaluate_attacks (mkEngine cdReads) ⟨[], false⟩ = 0 := by
    simp +decide [ACP.evaluate_attacks, mkEngine, cdReads, krkReads,
      finRange_eq_sq64, sq64, List.foldl]
  have hk : ACP.evaluate_king_safety_differential (mkEngine cdReads)
      ⟨[], false⟩ = 0 := by
    simp +decide [ACP.evaluate_king_safety_differential, ACP.get_king_zone,
      ACP.KING_ATTACK_BONUS, mkEngine, cdReads, krkReads, squareFile,
      squareRank, mkSquare, List.foldl]
  have hp : ACP.evaluate_piece_activityT (mkEngine cdReads) ⟨[], false⟩ =
      (0, ⟨[], false⟩) := by
    simp +decide [ACP.evaluate_piece_activityT,
      ACP.AGGRESSIVE_POSITION_BONUS, mkEngine, cdReads, krkReads,
      squareRank, finRange_eq_sq64, sq64, List.foldl]
  have hc : ACP.evaluate_center_control (mkEngine cdReads) ⟨[], false⟩ =
      0 := by
    simp +decide [ACP.evaluate_center_control, ACP.CENTER_SQUARES,
      ACP.EXTENDED_CENTER, mkEngine, cdReads, krkReads, List.foldl]
  have ht : ACP.evaluate_threats (mkEngine cdReads) ⟨[], false⟩ = 0 := by
    simp +decide [ACP.evaluate_threats, mkEngine, cdReads, krkReads,
      finRange_eq_sq64, sq64, List.foldl]
  rw [ACP.evaluate_position, ACP.evaluate_positionT]
  simp only [hm, ha, hk, hp, hc, ht]
  norm_num [mkEngine, cdReads, krkReads]

/-- A fold whose every step moves by at most `k` in absolute value stays
within `|start| + k * length`. -/
theorem absFoldlLe {α : Type} (f : ℤ → α → ℤ) (k : ℤ)
    (h : ∀ s a, |f s a - s| ≤ k) :
    ∀ (l : List α) (s : ℤ), |l.foldl f s| ≤ |s| + k * l.length := by
  intro l
  induction l with
  | nil => intro s; simp
  | cons a l ih =>
    intro s
    have h1 := ih (f s a)
    have h2 := abs_add s (f s a - s)
    have h3 : s + (f s a - s) = f s a := by ring
    rw [h3] at h2
    have h4 := h s a
    simp only [List.foldl_cons, List.length_cons]
    push_cast
    have h5 : k * ((l.length : ℤ) + 1) = k * l.length + k := by ring
    linarith

/-- A natural fold whose every step adds at most `k` stays within
`start + k * length`. -/
theorem natFoldlLe {α : Type} (f : Nat → α → Nat) (k : Nat)
    (h : ∀ s a, f s a ≤ s + k) :
    ∀ (l : List α) (s : Nat), l.foldl f s ≤ s + k * l.length := by
  intro l
  induction l with
  | nil => intro s; simp
  | cons a l ih =>
    intro s
    have h1 := ih (f s a)
    have h2 := h s a
    simp only [List.foldl_cons, List.length_cons]
    have h3 : k * (l.length + 1) = k * l.length + k := by ring
    omega

/-- C6: on any position reachable in a legal game (at most fifteen
non-king pieces and exactly one king per side, at most sixteen attackers
of any square, at most 218 legal moves for either side) that is not
checkmate, the aggressive player's evaluation is strictly below the
±20000 checkmate sentinel in absolute value, so the sentinel dominates
every achievable non-terminal score. -/
theorem C6_sentinels_dominate {B M : Type} (E : Engine B M) (b : B)
    (hw : pieceCount E b true .pawn + pieceCount E b true .knight +
      pieceCount E b true .bishop + pieceCount E b true .rook +
      pieceCount E b true .queen ≤ 15)
    (hbl : pieceCount E b false .pawn + pieceCount E b false .knight +
      pieceCount E b false .bishop + pieceCount E b false .rook +
      pieceCount E b false .queen ≤ 15)
    (hwk : pieceCount E b true .king = 1)
    (hbk : pieceCount E b false .king = 1)
    (hatk : ∀ (c : Bool) (sq : Square), E.attackers b c sq ≤ 16)
    (hmob1 : (E.legal_moves b).length ≤ 218)
    (hmob2 : (E.legal_moves (E.pushNull b)).length ≤ 218)
    (hcm : E.is_checkmate b = false) :
    |AGP.evaluate_position E b| < 20000 := by
  have hmat : |AGP.evaluate_material E b| ≤ 13500 := by
    rw [AGP.evaluate_material, AGP.PT_LIST]
    simp only [List.foldl, AGP.PIECE_VALUES]
    rw [abs_le]
    constructor <;> omega
  have hcc : |AGP.evaluate_center_control E b| ≤ 560 := by
    rw [AGP.evaluate_center_control]
    have s1 : ∀ (s : ℤ) (sq : Square),
        |(fun (s : ℤ) (sq : Square) =>
          match E.piece_at b sq with
          | some pc => s + (if pc.1 then 30 else -30)
          | none => s) s sq - s| ≤ 30 := by
      intro s sq
      show |(match E.piece_at b sq with
        | some pc => s + (if pc.1 then 30 else -30)
        | none => s) - s| ≤ 30
      rcases E.piece_at b sq with _ | ⟨c, pt⟩
      · simp
      · rcases c
        · have h : s + (-30 : ℤ) - s = -30 := by ring
          simp only [Bool.false_eq_true, if_false, h]
          norm_num
        · have h : s + (30 : ℤ) - s = 30 := by ring
          simp only [if_true, h]
          norm_num
    have s2 : ∀ (s : ℤ) (sq : Square),
        |(fun (s : ℤ) (sq : Square) =>
          match E.piece_at b sq with
          | some pc => s + (if pc.1 then 10 else -10)
          | none => s) s sq - s| ≤ 10 := by
      intro s sq
      show |(match E.piece_at b sq with
        | some pc => s + (if pc.1 then 10 else -10)
        | none => s) - s| ≤ 10
      rcases E.piece_at b sq with _ | ⟨c, pt⟩
      · simp
      · rcases c
        · have h : s + (-10 : ℤ) - s = -10 := by ring
          simp only [Bool.false_eq_true, if_false, h]
          norm_num
        · have h : s + (10 : ℤ) - s = 10 := by ring
          simp only [if_true, h]
          norm_num
    have s3 : ∀ (s : ℤ) (sq : Square),
        |(fun (s : ℤ) (sq : Square) =>
          s + ((E.attackers b true sq : ℤ) - (E.attackers b false sq : ℤ)) * 5)
            s sq - s| ≤ 80 := by
      intro s sq
      have ha1 := hatk true sq
      have ha2 := hatk false sq
      have h3 : s + ((E.attackers b true sq : ℤ) -
          (E.attackers b false sq : ℤ)) * 5 - s =
          ((E.attackers b true sq : ℤ) - (E.attackers b false sq : ℤ)) * 5 := by
        ring
      rw [h3, abs_le]
      constructor <;> omega
    have h1 := absFoldlLe _ 30 s1 AGP.CENTER_SQUARES 0
    have h2 := absFoldlLe _ 10 s2 AGP.EXTENDED_CENTER
      (AGP.CENTER_SQUARES.foldl (fun (s : ℤ) (sq : Square) =>
        match E.piece_at b sq with
        | some pc => s + (if pc.1 then 30 else -30)
        | none => s) 0)
    have h3 := absFoldlLe _ 80 s3 AGP.CENTER_SQUARES
      (AGP.EXTENDED_CENTER.foldl (fun (s : ℤ) (sq : Square) =>
        match E.piece_at b sq with
        | some pc => s + (if pc.1 then 10 else -10)
        | none => s)
        (AGP.CENTER_SQUARES.foldl (fun (s : ℤ) (sq : Square) =>
          match E.piece_at b sq with
          | some pc => s + (if pc.1 then 30 else -30)
          | none => s) 0))
    simp only [AGP.CENTER_SQUARES, AGP.EXTENDED_CENTER, List.length_cons,
      List.length_nil, abs_zero] at h1 h2 h3 ⊢
    push_cast at h1 h2 h3
    linarith
  have hz : ∀ (ksq : Square) (c : Bool),
      AGP.count_king_zone_attacks E b ksq c ≤ 144 := by
    intro ksq c
    rw [AGP.count_king_zone_attacks]
    have step : ∀ (s : Nat) (off : ℤ × ℤ),
        (fun (attacks : Nat) (off : ℤ × ℤ) =>
          let target_file : ℤ := (squareFile ksq : ℤ) + off.1
          let target_rank : ℤ := (squareRank ksq : ℤ) + off.2
          if 0 ≤ target_file ∧ target_file ≤ 7 ∧ 0 ≤ target_rank ∧
              target_rank ≤ 7
          then attacks +
            E.attackers b c (mkSquare target_file.toNat target_rank.toNat)
          else attacks) s off ≤ s + 16 := by
      intro s off
      simp only []
      split
      · have := hatk c (mkSquare ((squareFile ksq : ℤ) + off.1).toNat
          ((squareRank ksq : ℤ) + off.2).toNat)
        omega
      · omega
    have h := natFoldlLe _ 16 step AGP.KING_ZONE_OFFSETS 0
    simpa [AGP.KING_ZONE_OFFSETS] using h
  have hka : |AGP.evaluate_king_attack E b| ≤ 4320 := by
    rw [AGP.evaluate_king_attack]
    cases hkw : E.king b true with
    | none =>
      cases hkb : E.king b false with
      | none => simp
      | some bk =>
        have := hz bk true
        simp only []
        rw [abs_le]
        constructor <;> omega
    | some wk =>
      cases hkb : E.king b false with
      | none =>
        have := hz wk false
        simp only []
        rw [abs_le]
        constructor <;> omega
      | some bk =>
        have h1 := hz bk true
        have h2 := hz wk false
        simp only []
        rw [abs_le]
        constructor <;> omega
  have hmo : |AGP.evaluate_mobility E b| ≤ 436 := by
    rw [AGP.evaluate_mobility]
    cases ht : E.turn b <;>
      simp only [Bool.false_eq_true, if_false, if_true] <;>
      rw [abs_le] <;> constructor <;> omega
  rw [AGP.evaluate_position, hcm]
  simp only [Bool.false_eq_true, if_false]
  by_cases hsi : E.is_stalemate b = true ∨ E.is_insufficient_material b = true
  · rw [if_pos hsi]
    norm_num
  · rw [if_neg hsi]
    rw [abs_le] at hmat hcc hka hmo
    obtain ⟨hm1, hm2⟩ := hmat
    obtain ⟨hc1, hc2⟩ := hcc
    obtain ⟨hk1, hk2⟩ := hka
    obtain ⟨ho1, ho2⟩ := hmo
    cases hck : E.is_check b
    · simp only [Bool.false_eq_true, if_false]
      rw [abs_lt]
      constructor <;> linarith
    · simp only [if_true]
      cases ht : E.turn b <;>
        simp only [Bool.false_eq_true, if_false, if_true] <;>
        rw [abs_lt] <;> constructor <;> linarith

theorem C6_sentinels_dominate_witness :
    (pieceCount (mkEngine krkReads) ⟨[], false⟩ true .pawn +
        pieceCount (mkEngine krkReads) ⟨[], false⟩ true .knight +
        pieceCount (mkEngine krkReads) ⟨[], false⟩ true .bishop +
        pieceCount (mkEngine krkReads) ⟨[], false⟩ true .rook +
        pieceCount (mkEngine krkReads) ⟨[], false⟩ true .queen ≤ 15) ∧
    (pieceCount (mkEngine krkReads) ⟨[], false⟩ false .pawn +
        pieceCount (mkEngine krkReads) ⟨[], false⟩ false .knight +
        pieceCount (mkEngine krkReads) ⟨[], false⟩ false .bishop +
        pieceCount (mkEngine krkReads) ⟨[], false⟩ false .rook +
        pieceCount (mkEngine krkReads) ⟨[], false⟩ false .queen ≤ 15) ∧
    pieceCount (mkEngine krkReads) ⟨[], false⟩ true .king = 1 ∧
    pieceCount (mkEngine krkReads) ⟨[], false⟩ false .king = 1 ∧
    (∀ (c : Bool) (sq : Square),
      (mkEngine krkReads).attackers ⟨[], false⟩ c sq ≤ 16) ∧
    ((mkEngine krkReads).legal_moves ⟨[], false⟩).length ≤ 218 ∧
    ((mkEngine krkReads).legal_moves
      ((mkEngine krkReads).pushNull ⟨[], false⟩)).length ≤ 218 ∧
    (mkEngine krkReads).is_checkmate ⟨[], false⟩ = false ∧
    |AGP.evaluate_position (mkEngine krkReads) ⟨[], false⟩| < 20000 :=
  ⟨by decide, by decide, by decide, by decide, by decide, by decide,
    by decide, rfl,
    C6_sentinels_dominate (mkEngine krkReads) ⟨[], false⟩ (by decide)
      (by decide) (by decide) (by decide) (by decide) (by decide)
      (by decide) rfl⟩

/-- Piece values of the AggressiveAttacker lie in [0, 900]. -/
theorem aat_pv_bounds (pt : PieceType) :
    (0 : ℚ) ≤ (AAT.PIECE_VALUES pt : ℚ) ∧ (AAT.PIECE_VALUES pt : ℚ) ≤ 900 := by
  cases pt <;> constructor <;> norm_num [AAT.PIECE_VALUES]

/-- Chebyshev distance between board squares is at most 7. -/
theorem squareDistance_le7 : ∀ (a c : Square), squareDistance a c ≤ 7 := by
  decide

/-- The checkmate/check step of the attacker's move scorer adds its bonus
to the accumulator. -/
theorem aat_step1 {B M : Type} (E : Engine B M) (af : ℚ) (b : B) (m : M)
    (s : ℚ) :
    (if E.is_checkmate (E.push b m) then s + 100000
      else if E.is_check (E.push b m) then s + 5000 * af
      else s) =
    s + (if E.is_checkmate (E.push b m) then (100000 : ℚ)
      else if E.is_check (E.push b m) then 5000 * af
      else 0) := by
  by_cases h1 : E.is_checkmate (E.push b m) = true
  · rw [if_pos h1, if_pos h1]
  · rw [if_neg h1, if_neg h1]
    by_cases h2 : E.is_check (E.push b m) = true
    · rw [if_pos h2, if_pos h2]
    · rw [if_neg h2, if_neg h2]
      ring

/-- The capture step of the attacker's move scorer adds its bonus to the
accumulator. -/
theorem aat_step2 {B M : Type} (E : Engine B M) (af : ℚ) (b : B) (m : M)
    (s : ℚ) :
    (if E.is_capture b m then
      match E.piece_at b (E.to_square m), E.piece_at b (E.from_square m) with
      | some captured, some moving =>
        s + ((AAT.PIECE_VALUES captured.2 : ℚ) * 10 -
          (AAT.PIECE_VALUES moving.2 : ℚ)) * af
      | _, _ => s
    else s) =
    s + (if E.is_capture b m then
      match E.piece_at b (E.to_square m), E.piece_at b (E.from_square m) with
      | some captured, some moving =>
        ((AAT.PIECE_VALUES captured.2 : ℚ) * 10 -
          (AAT.PIECE_VALUES moving.2 : ℚ)) * af
      | _, _ => (0 : ℚ)
    else (0 : ℚ)) := by
  by_cases h : E.is_capture b m = true
  · rw [if_pos h, if_pos h]
    rcases E.piece_at b (E.to_square m) with _ | c <;>
      rcases E.piece_at b (E.from_square m) with _ | v <;> simp
  · rw [if_neg h, if_neg h]
    ring

/-- The king-hunt step of the attacker's move scorer adds its bonus to
the accumulator. -/
theorem aat_step3 {B M : Type} (E : Engine B M) (af : ℚ) (b : B) (m : M)
    (s : ℚ) :
    (match E.king b (!E.turn b) with
      | some ek =>
        match E.piece_at b (E.from_square m) with
        | some _ =>
          if squareDistance (E.to_square m) ek <
              squareDistance (E.from_square m) ek then
            s + ((squareDistance (E.from_square m) ek : ℚ) -
              (squareDistance (E.to_square m) ek : ℚ)) * 50 * af
          else s
        | none => s
      | none => s) =
    s + (match E.king b (!E.turn b) with
      | some ek =>
        match E.piece_at b (E.from_square m) with
        | some _ =>
          if squareDistance (E.to_square m) ek <
              squareDistance (E.from_square m) ek then
            ((squareDistance (E.from_square m) ek : ℚ) -
              (squareDistance (E.to_square m) ek : ℚ)) * 50 * af
          else (0 : ℚ)
        | none => (0 : ℚ)
      | none => (0 : ℚ)) := by
  rcases E.king b (!E.turn b) with _ | ek
  · simp
  · rcases E.piece_at b (E.from_square m) with _ | p
    · simp
    · by_cases h : squareDistance (E.to_square m) ek <
          squareDistance (E.from_square m) ek
      · simp [h]
      · simp [h]

/-- The central-square step of the attacker's move scorer adds its bonus
to the accumulator. -/
theorem aat_step4 {B M : Type} (E : Engine B M) (m : M) (s : ℚ) :
    (if E.to_square m ∈ ([28, 27, 36, 35] : List Square) then s + 100
      else s) =
    s + (if E.to_square m ∈ ([28, 27, 36, 35] : List Square) then (100 : ℚ)
      else 0) := by
  by_cases h : E.to_square m ∈ ([28, 27, 36, 35] : List Square)
  · rw [if_pos h, if_pos h]
  · rw [if_neg h, if_neg h]
    ring

/-- The development step of the attacker's move scorer adds its bonus to
the accumulator. -/
theorem aat_step5 {B M : Type} (E : Engine B M) (hist : List M) (b : B)
    (m : M) (s : ℚ) :
    (if hist.length < 10 then
      match E.piece_at b (E.from_square m) with
      | some moving =>
        if moving.2 = PieceType.knight ∨ moving.2 = PieceType.bishop then
          if E.turn b then
            if E.from_square m ∈ ([1, 6, 2, 5] : List Square) then s + 150
            else s
          else
            if E.from_square m ∈ ([57, 62, 58, 61] : List Square) then s + 150
            else s
        else s
      | none => s
    else s) =
    s + (if hist.length < 10 then
      match E.piece_at b (E.from_square m) with
      | some moving =>
        if moving.2 = PieceType.knight ∨ moving.2 = PieceType.bishop then
          if E.turn b then
            if E.from_square m ∈ ([1, 6, 2, 5] : List Square) then (150 : ℚ)
            else 0
          else
            if E.from_square m ∈ ([57, 62, 58, 61] : List Square) then (150 : ℚ)
            else 0
        else 0
      | none => 0
    else 0) := by
  by_cases h1 : hist.length < 10
  · rw [if_pos h1, if_pos h1]
    rcases E.piece_at b (E.from_square m) with _ | p
    · simp
    · by_cases h2 : p.2 = PieceType.knight ∨ p.2 = PieceType.bishop
      · cases ht : E.turn b
        · by_cases h3 : E.from_square m ∈ ([57, 62, 58, 61] : List Square) <;>
            simp [h2, ht, h3]
        · by_cases h3 : E.from_square m ∈ ([1, 6, 2, 5] : List Square) <;>
            simp [h2, ht, h3]
      · simp [h2]
  · rw [if_neg h1, if_neg h1]
    ring

/-- Bounds for the capture term at the default aggression factor 3/2. -/
theorem aat_capTerm_bounds {B M : Type} (E : Engine B M) (b : B) (m : M) :
    (-1350 : ℚ) ≤ (if E.is_capture b m then
      match E.piece_at b (E.to_square m), E.piece_at b (E.from_square m) with
      | some captured, some moving =>
        ((AAT.PIECE_VALUES captured.2 : ℚ) * 10 -
          (AAT.PIECE_VALUES moving.2 : ℚ)) * (3 / 2)
      | _, _ => (0 : ℚ)
    else (0 : ℚ)) ∧
    (if E.is_capture b m then
      match E.piece_at b (E.to_square m), E.piece_at b (E.from_square m) with
      | some captured, some moving =>
        ((AAT.PIECE_VALUES captured.2 : ℚ) * 10 -
          (AAT.PIECE_VALUES moving.2 : ℚ)) * (3 / 2)
      | _, _ => (0 : ℚ)
    else (0 : ℚ)) ≤ 13500 := by
  by_cases h : E.is_capture b m = true
  · rw [if_pos h]
    rcases E.piece_at b (E.to_square m) with _ | c <;>
      rcases E.piece_at b (E.from_square m) with _ | v <;> simp only [] <;>
      try norm_num
    have hc := aat_pv_bounds c.2
    have hv := aat_pv_bounds v.2
    constructor <;> (ring_nf; nlinarith [hc.1, hc.2, hv.1, hv.2])
  · rw [if_neg h]
    norm_num

/-- Bounds for the king-hunt term at the default aggression factor 3/2. -/
theorem aat_huntTerm_bounds {B M : Type} (E : Engine B M) (b : B) (m : M) :
    (0 : ℚ) ≤ (match E.king b (!E.turn b) with
      | some ek =>
        match E.piece_at b (E.from_square m) with
        | some _ =>
          if squareDistance (E.to_square m) ek <
              squareDistance (E.from_square m) ek then
            ((squareDistance (E.from_square m) ek : ℚ) -
              (squareDistance (E.to_square m) ek : ℚ)) * 50 * (3 / 2)
          else (0 : ℚ)
        | none => (0 : ℚ)
      | none => (0 : ℚ)) ∧
    (match E.king b (!E.turn b) with
      | some ek =>
        match E.piece_at b (E.from_square m) with
        | some _ =>
          if squareDistance (E.to_square m) ek <
              squareDistance (E.from_square m) ek then
            ((squareDistance (E.from_square m) ek : ℚ) -
              (squareDistance (E.to_square m) ek : ℚ)) * 50 * (3 / 2)
          else (0 : ℚ)
        | none => (0 : ℚ)
      | none => (0 : ℚ)) ≤ 525 := by
  rcases E.king b (!E.turn b) with _ | ek
  · norm_num
  · rcases E.piece_at b (E.from_square m) with _ | p
    · norm_num
    · simp only []
      by_cases h : squareDistance (E.to_square m) ek <
          squareDistance (E.from_square m) ek
      · simp only [if_pos h]
        have h7 := squareDistance_le7 (E.from_square m) ek
        have hlt : ((squareDistance (E.to_square m) ek : ℚ)) <
            ((squareDistance (E.from_square m) ek : ℚ)) := by
          exact_mod_cast h
        have h7q : ((squareDistance (E.from_square m) ek : ℚ)) ≤ 7 := by
          exact_mod_cast h7
        have h0q : (0 : ℚ) ≤ ((squareDistance (E.to_square m) ek : ℚ)) := by
          positivity
        constructor <;> (ring_nf; nlinarith [hlt, h7q, h0q])
      · simp only [if_neg h]
        norm_num

/-- Bounds for the central-square term. -/
theorem aat_centralTerm_bounds {B M : Type} (E : Engine B M) (m : M) :
    (0 : ℚ) ≤ (if E.to_square m ∈ ([28, 27, 36, 35] : List Square)
      then (100 : ℚ) else 0) ∧
    (if E.to_square m ∈ ([28, 27, 36, 35] : List Square)
      then (100 : ℚ) else 0) ≤ 100 := by
  by_cases h : E.to_square m ∈ ([28, 27, 36, 35] : List Square) <;>
    simp [h]

/-- Bounds for the development term. -/
theorem aat_devTerm_bounds {B M : Type} (E : Engine B M) (hist : List M)
    (b : B) (m : M) :
    (0 : ℚ) ≤ (if hist.length < 10 then
      match E.piece_at b (E.from_square m) with
      | some moving =>
        if moving.2 = PieceType.knight ∨ moving.2 = PieceType.bishop then
          if E.turn b then
            if E.from_square m ∈ ([1, 6, 2, 5] : List Square) then (150 : ℚ)
            else 0
          else
            if E.from_square m ∈ ([57, 62, 58, 61] : List Square) then (150 : ℚ)
            else 0
        else 0
      | none => 0
    else 0) ∧
    (if hist.length < 10 then
      match E.piece_at b (E.from_square m) with
      | some moving =>
        if moving.2 = PieceType.knight ∨ moving.2 = PieceType.bishop then
          if E.turn b then
            if E.from_square m ∈ ([1, 6, 2, 5] : List Square) then (150 : ℚ)
            else 0
          else
            if E.from_square m ∈ ([57, 62, 58, 61] : List Square) then (150 : ℚ)
            else 0
        else 0
      | none => 0
    else 0) ≤ 150 := by
  by_cases h1 : hist.length < 10
  · rw [if_pos h1]
    rcases E.piece_at b (E.from_square m) with _ | p
    · norm_num
    · by_cases h2 : p.2 = PieceType.knight ∨ p.2 = PieceType.bishop
      · cases ht : E.turn b
        · by_cases h3 : E.from_square m ∈ ([57, 62, 58, 61] : List Square) <;>
            simp [h2, ht, h3]
        · by_cases h3 : E.from_square m ∈ ([1, 6, 2, 5] : List Square) <;>
            simp [h2, ht, h3]
      · simp [h2]
  · rw [if_neg h1]
    norm_num

/-- A checkmating move scores at least 98650 at aggression factor 3/2. -/
theorem aat_mate_score_ge {B M : Type} (E : Engine B M) (hist : List M)
    (b : B) (m : M) (hm : E.is_checkmate (E.push b m) = true) :
    (98650 : ℚ) ≤ AAT.move_score E (3 / 2) hist b m := by
  rw [AAT.move_score, aat_step1, aat_step2, aat_step3, aat_step4, aat_step5,
    if_pos hm]
  have h2 := aat_capTerm_bounds E b m
  have h3 := aat_huntTerm_bounds E b m
  have h4 := aat_centralTerm_bounds E m
  have h5 := aat_devTerm_bounds E hist b m
  linarith [h2.1, h3.1, h4.1, h5.1]

/-- A non-checkmating move scores at most 21775 at aggression factor
3/2. -/
theorem aat_nonmate_score_le {B M : Type} (E : Engine B M) (hist : List M)
    (b : B) (m : M) (hm : E.is_checkmate (E.push b m) = false) :
    AAT.move_score E (3 / 2) hist b m ≤ 21775 := by
  have hm' : ¬ (E.is_checkmate (E.push b m) = true) := by
    rw [hm]
    exact Bool.false_ne_true
  rw [AAT.move_score, aat_step1, aat_step2, aat_step3, aat_step4, aat_step5,
    if_neg hm']
  have h1 : (if E.is_check (E.push b m) then (5000 : ℚ) * (3 / 2) else 0) ≤
      7500 ∧ (0 : ℚ) ≤
      (if E.is_check (E.push b m) then (5000 : ℚ) * (3 / 2) else 0) := by
    by_cases hc : E.is_check (E.push b m) = true <;> simp [hc] <;> norm_num
  have h2 := aat_capTerm_bounds E b m
  have h3 := aat_huntTerm_bounds E b m
  have h4 := aat_centralTerm_bounds E m
  have h5 := aat_devTerm_bounds E hist b m
  linarith [h1.1, h2.2, h3.2, h4.2, h5.2]

/-- C9 (amended): in the AggressiveAttacker's move orderer (at the
default aggression factor 3/2), a checkmating move sorts before every
non-checkmating move: wherever a non-mating move appears in the ordered
output, the mating move appears strictly earlier.  (The
AggressiveChessPlayer's orderer has no checkmate criterion at all and can
rank a capture above a mating move; see the counterexample.) -/
theorem C9_mate_sorts_first {B M : Type} (E : Engine B M) (hist : List M)
    (b : B) (ms : List M) (mt : M) (hmt : mt ∈ ms)
    (hmate : E.is_checkmate (E.push b mt) = true)
    (l1 : List M) (m' : M) (l2 : List M)
    (hsplit : AAT.order_moves E (3 / 2) hist b ms = l1 ++ m' :: l2)
    (hnm : E.is_checkmate (E.push b m') = false) :
    mt ∈ l1 := by
  classical
  rw [AAT.order_moves] at hsplit
  haveI hTot : IsTotal (M × ℚ) (fun x y : M × ℚ => y.2 ≤ x.2) :=
    ⟨fun a c => le_total c.2 a.2⟩
  haveI hTrans : IsTrans (M × ℚ) (fun x y : M × ℚ => y.2 ≤ x.2) :=
    ⟨fun a c d h1 h2 => le_trans h2 h1⟩
  obtain ⟨L1, L2, hL12, hmap1, hmap2⟩ :=
    List.append_eq_map_iff.mp hsplit.symm
  obtain ⟨p, L2x, hL2, hp1, hmap2x⟩ := List.map_eq_cons_iff.mp hmap2
  have hmem : (mt, AAT.move_score E (3 / 2) hist b mt) ∈
      ms.map (fun m => (m, AAT.move_score E (3 / 2) hist b m)) :=
    List.mem_map_of_mem _ hmt
  have hmemL : (mt, AAT.move_score E (3 / 2) hist b mt) ∈
      List.insertionSort (fun x y : M × ℚ => y.2 ≤ x.2)
        (ms.map (fun m => (m, AAT.move_score E (3 / 2) hist b m))) :=
    ((List.perm_insertionSort _ _).mem_iff).mpr hmem
  rw [hL12, hL2] at hmemL
  rcases List.mem_append.mp hmemL with hin1 | hin2
  · have hfst : mt ∈ L1.map Prod.fst := List.mem_map_of_mem Prod.fst hin1
    rwa [hmap1] at hfst
  · rcases List.mem_cons.mp hin2 with heq | hin2x
    · have hmm : m' = mt := by
        rw [← hp1, ← heq]
      rw [hmm] at hnm
      rw [hmate] at hnm
      exact absurd hnm (by simp)
    · have hsorted : List.Sorted (fun x y : M × ℚ => y.2 ≤ x.2)
          (List.insertionSort (fun x y : M × ℚ => y.2 ≤ x.2)
            (ms.map (fun m => (m, AAT.move_score E (3 / 2) hist b m)))) :=
        List.sorted_insertionSort _ _
      rw [hL12, hL2] at hsorted
      have hpair := (List.pairwise_append.mp hsorted).2.1
      have hrel := (List.pairwise_cons.mp hpair).1 _ hin2x
      have hpmem : p ∈ ms.map (fun m => (m, AAT.move_score E (3 / 2) hist b m)) := by
        have hpL : p ∈ List.insertionSort (fun x y : M × ℚ => y.2 ≤ x.2)
            (ms.map (fun m => (m, AAT.move_score E (3 / 2) hist b m))) := by
          rw [hL12, hL2]
          exact List.mem_append.mpr (Or.inr (List.mem_cons_self _ _))
        exact ((List.perm_insertionSort _ _).mem_iff).mp hpL
      obtain ⟨a, ha, hpa⟩ := List.mem_map.mp hpmem
      have hp2 : p.2 = AAT.move_score E (3 / 2) hist b m' := by
        rw [← hpa] at hp1 ⊢
        simp only at hp1 ⊢
        rw [hp1]
      have hscore : AAT.move_score E (3 / 2) hist b mt ≤
          AAT.move_score E (3 / 2) hist b m' := by
        have := hrel
        simp only at this
        rw [hp2] at this
        exact this
      have hge := aat_mate_score_ge E hist b mt hmate
      have hle := aat_nonmate_score_le E hist b m' hnm
      exfalso
      linarith

/-- Reads for the move-ordering instance: move 0 is a rook lift a1–a8
that delivers checkmate; move 1 is the pawn capture d2xd4 of a queen. -/
def c9Reads : EngineReads (Fin 2) where
  piece_at := fun _ sq =>
    if sq.val = 0 then some (true, PieceType.rook)
    else if sq.val = 11 then some (true, PieceType.pawn)
    else if sq.val = 27 then some (false, PieceType.queen)
    else none
  is_capture := fun _ m => m == 1
  to_square := fun m => if m == 0 then 56 else 27
  from_square := fun m => if m == 0 then 0 else 11
  is_check := fun b =>
    match b.stack with
    | some m :: _ => m == 0
    | _ => false
  is_checkmate := fun b =>
    match b.stack with
    | some m :: _ => m == 0
    | _ => false

theorem C9_counterexample :
    (mkEngine c9Reads).is_checkmate
      ((mkEngine c9Reads).push ⟨[], true⟩ 0) = true ∧
    (mkEngine c9Reads).is_checkmate
      ((mkEngine c9Reads).push ⟨[], true⟩ 1) = false ∧
    ACP.order_moves (mkEngine c9Reads) ⟨[], true⟩ [0, 1] = [1, 0] := by
  refine ⟨rfl, rfl, ?_⟩
  decide

theorem C9_mate_sorts_first_witness :
    ((0 : Fin 2) ∈ ([0, 1] : List (Fin 2)) ∧
      (mkEngine c9Reads).is_checkmate
        ((mkEngine c9Reads).push ⟨[], true⟩ 0) = true ∧
      AAT.order_moves (mkEngine c9Reads) (3 / 2) [] ⟨[], true⟩ [0, 1] =
        [0] ++ 1 :: [] ∧
      (mkEngine c9Reads).is_checkmate
        ((mkEngine c9Reads).push ⟨[], true⟩ 1) = false) ∧
    (0 : Fin 2) ∈ ([0] : List (Fin 2)) := by
  have hsplit : AAT.order_moves (mkEngine c9Reads) (3 / 2) []
      ⟨[], true⟩ [0, 1] = [0] ++ 1 :: [] := by
    simp +decide [AAT.order_moves, AAT.move_score, AAT.PIECE_VALUES,
      mkEngine, c9Reads, squareDistance, squareFile, squareRank,
      List.insertionSort, List.orderedInsert]
    norm_num
  exact ⟨⟨by decide, rfl, hsplit, rfl⟩,
    C9_mate_sorts_first (mkEngine c9Reads) [] ⟨[], true⟩ [0, 1] 0
      (by decide) rfl [0] 1 [] hsplit rfl⟩

/-- The attacker's move scorer reads the move history only through the
`length < 10` development threshold. -/
theorem aat_move_score_hist {B M : Type} (E : Engine B M) (af : ℚ)
    (h1 h2 : List M) (b : B) (m : M)
    (hlt10 : (h1.length < 10) = (h2.length < 10)) :
    AAT.move_score E af h1 b m = AAT.move_score E af h2 b m := by
  rw [AAT.move_score, AAT.move_score]
  simp only [hlt10]

/-- The attacker's move orderer reads the move history only through the
`length < 10` development threshold. -/
theorem aat_order_moves_hist {B M : Type} (E : Engine B M) (af : ℚ)
    (h1 h2 : List M) (b : B) (ms : List M)
    (hlt10 : (h1.length < 10) = (h2.length < 10)) :
    AAT.order_moves E af h1 b ms = AAT.order_moves E af h2 b ms := by
  rw [AAT.order_moves, AAT.order_moves]
  have hf : (fun m => (m, AAT.move_score E af h1 b m)) =
      (fun m => (m, AAT.move_score E af h2 b m)) :=
    funext fun m => by rw [aat_move_score_hist E af h1 h2 b m hlt10]
  rw [hf]

/-- The attacker's evaluator reads the move history only through the
`length < 20` development threshold. -/
theorem aat_evaluate_position_hist {B M : Type} (E : Engine B M) (af : ℚ)
    (h1 h2 : List M) (b : B)
    (hlt20 : (h1.length < 20) = (h2.length < 20)) :
    AAT.evaluate_position E af h1 b = AAT.evaluate_position E af h2 b := by
  rw [AAT.evaluate_position, AAT.evaluate_position]
  simp only [hlt20]

/-- The attacker's alpha-beta search reads the move history only through
the two length thresholds. -/
theorem aat_alphaBeta_hist {B M : Type} (E : Engine B M) (af : ℚ)
    (h1 h2 : List M)
    (hlt10 : (h1.length < 10) = (h2.length < 10))
    (hlt20 : (h1.length < 20) = (h2.length < 20)) :
    ∀ (d : Nat) (b : B) (alpha beta : XQ) (mx : Bool),
      AAT.alphaBeta E af h1 d b alpha beta mx =
        AAT.alphaBeta E af h2 d b alpha beta mx := by
  intro d
  induction d with
  | zero =>
    intro b alpha beta mx
    simp only [AAT.alphaBeta]
    rw [aat_evaluate_position_hist E af h1 h2 b hlt20]
  | succ d ih =>
    intro b alpha beta mx
    have hmax : ∀ (ms : List M) (bb : B) (acc al be : XQ),
        AAT.abMaxLoop E af h1 d bb ms acc al be =
          AAT.abMaxLoop E af h2 d bb ms acc al be := by
      intro ms
      induction ms with
      | nil =>
        intro bb acc al be
        simp only [AAT.abMaxLoop]
      | cons m rest ihm =>
        intro bb acc al be
        simp only [AAT.abMaxLoop]
        rw [ih (E.push bb m) al be false, ihm]
    have hmin : ∀ (ms : List M) (bb : B) (acc al be : XQ),
        AAT.abMinLoop E af h1 d bb ms acc al be =
          AAT.abMinLoop E af h2 d bb ms acc al be := by
      intro ms
      induction ms with
      | nil =>
        intro bb acc al be
        simp only [AAT.abMinLoop]
      | cons m rest ihm =>
        intro bb acc al be
        simp only [AAT.abMinLoop]
        rw [ih (E.push bb m) al be true, ihm]
    simp only [AAT.alphaBeta]
    rw [aat_order_moves_hist E af h1 h2 b (E.legal_moves b) hlt10, hmax, hmin]

/-- The attacker's root loop reads the move history only through the two
length thresholds. -/
theorem aat_rootLoop_hist {B M : Type} (E : Engine B M) (af : ℚ)
    (h1 h2 : List M)
    (hlt10 : (h1.length < 10) = (h2.length < 10))
    (hlt20 : (h1.length < 20) = (h2.length < 20)) :
    ∀ (ms : List M) (b : B) (bm : Option M) (best : XQ),
      AAT.rootLoop E af h1 b ms bm best =
        AAT.rootLoop E af h2 b ms bm best := by
  intro ms
  induction ms with
  | nil =>
    intro b bm best
    simp only [AAT.rootLoop]
  | cons m rest ihm =>
    intro b bm best
    simp only [AAT.rootLoop]
    rw [aat_alphaBeta_hist E af h1 h2 hlt10 hlt20 3 (E.push b m)
      XQ.ninf XQ.pinf false, ihm, ihm]

/-- C4 (amended): the AggressiveAttacker's evaluation and move selection
do depend on the move history the player accumulates across calls, but
only through the two development thresholds: any two histories that
agree on `length < 10` and on `length < 20` produce the same evaluation
and the same selected move.  Successive calls whose histories cross a
threshold can return different moves for the same position (see the
counterexample). -/
theorem C4_history_thresholds {B M : Type} (E : Engine B M) (af : ℚ)
    (h1 h2 : List M) (b : B)
    (hlt10 : (h1.length < 10) = (h2.length < 10))
    (hlt20 : (h1.length < 20) = (h2.length < 20)) :
    AAT.evaluate_position E af h1 b = AAT.evaluate_position E af h2 b ∧
    (AAT.get_best_move E af h1 b).1 = (AAT.get_best_move E af h2 b).1 := by
  refine ⟨aat_evaluate_position_hist E af h1 h2 b hlt20, ?_⟩
  rcases hlm : E.legal_moves b with _ | ⟨m, rest⟩ <;>
    simp only [AAT.get_best_move, hlm]
  rw [aat_order_moves_hist E af h1 h2 b (m :: rest) hlt10,
    aat_rootLoop_hist E af h1 h2 hlt10 hlt20]
  rcases hr : AAT.rootLoop E af h2 b
      (AAT.order_moves E af h2 b (m :: rest)) none XQ.ninf with _ | bmv <;>
    simp

theorem C4_history_thresholds_witness :
    ((([] : List (Fin 2)).length < 10) =
      ((([0] : List (Fin 2))).length < 10)) ∧
    ((([] : List (Fin 2)).length < 20) =
      ((([0] : List (Fin 2))).length < 20)) ∧
    AAT.evaluate_position (mkEngine c9Reads) (3 / 2) ([] : List (Fin 2))
        ⟨[], true⟩ =
      AAT.evaluate_position (mkEngine c9Reads) (3 / 2) [0] ⟨[], true⟩ ∧
    (AAT.get_best_move (mkEngine c9Reads) (3 / 2) ([] : List (Fin 2))
        ⟨[], true⟩).1 =
      (AAT.get_best_move (mkEngine c9Reads) (3 / 2) [0] ⟨[], true⟩).1 :=
  ⟨by simp, by simp,
    (C4_history_thresholds (mkEngine c9Reads) (3 / 2) [] [0] ⟨[], true⟩
      (by simp) (by simp)).1,
    (C4_history_thresholds (mkEngine c9Reads) (3 / 2) [] [0] ⟨[], true⟩
      (by simp) (by simp)).2⟩

/-- Reads for the statefulness counterexample: two legal root moves, a
knight development move 0 (g1 to f3) and a central pawn move 1 (d2 to
d4); every successor position is stalemate, so the search scores both
moves equally and the ordering decides the selection. -/
def c4Reads : EngineReads (Fin 2) where
  legal_moves := fun b => if b.stack.isEmpty then [0, 1] else []
  is_stalemate := fun b => !b.stack.isEmpty
  piece_at := fun _ sq =>
    if sq.val = 6 then some (true, PieceType.knight)
    else if sq.val = 12 then some (true, PieceType.pawn)
    else none
  to_square := fun m => if m == 0 then 21 else 28
  from_square := fun m => if m == 0 then 6 else 12

/-- A nine-move history: one call before the development threshold. -/
def c4Hist : List (Fin 2) := List.replicate 9 0

theorem C4_counterexample :
    (AAT.get_best_move (mkEngine c4Reads) (3 / 2) c4Hist ⟨[], true⟩).1 =
      some 0 ∧
    (AAT.get_best_move (mkEngine c4Reads) (3 / 2)
        (AAT.get_best_move (mkEngine c4Reads) (3 / 2) c4Hist ⟨[], true⟩).2
        ⟨[], true⟩).1 = some 1 ∧
    (some (0 : Fin 2) : Option (Fin 2)) ≠ some 1 := by
  refine ⟨?_, ?_, by decide⟩
  · simp +decide [AAT.get_best_move, AAT.order_moves, AAT.move_score,
      AAT.rootLoop, AAT.alphaBeta, AAT.evaluate_position, AAT.PIECE_VALUES,
      mkEngine, c4Reads, c4Hist, List.replicate, List.insertionSort,
      List.orderedInsert, XQ.neg, squareDistance, squareFile, squareRank]
  · simp +decide [AAT.get_best_move, AAT.order_moves, AAT.move_score,
      AAT.rootLoop, AAT.alphaBeta, AAT.evaluate_position, AAT.PIECE_VALUES,
      mkEngine, c4Reads, c4Hist, List.replicate, List.insertionSort,
      List.orderedInsert, XQ.neg, squareDistance, squareFile, squareRank]
